import Mathlib

/-!
Verification of the harmonics engine contract exposed through the C ABI used by
the `rust_ffi_example` and `rust_scheduler_example` clients.  The visible
repository contains only binding glue; the graph IR, parser, partitioner,
cycle runtime and distributed scheduler live behind the ABI and are modelled
here from the specification, component by component.  Each modelled definition
carries a doc comment naming what is missing from the sources.
-/

namespace Harmonics

/-- The backend tag enumeration, embedded from
`src/examples/rust_scheduler_example/src/main.rs` lines 21-30: a `repr(C)`
Rust enum with exactly five variants. -/
inductive harmonics_backend_t where
  | HARMONICS_BACKEND_CPU
  | HARMONICS_BACKEND_GPU
  | HARMONICS_BACKEND_FPGA
  | HARMONICS_BACKEND_WASM
  | HARMONICS_BACKEND_AUTO
deriving DecidableEq, Repr

/-- The C discriminant of each backend tag, from the explicit `= 0` … `= 4`
assignments in the Rust enum declaration. -/
def backendTag : harmonics_backend_t → Nat
  | .HARMONICS_BACKEND_CPU => 0
  | .HARMONICS_BACKEND_GPU => 1
  | .HARMONICS_BACKEND_FPGA => 2
  | .HARMONICS_BACKEND_WASM => 3
  | .HARMONICS_BACKEND_AUTO => 4

/-- Modelled from the spec: the Graph IR node kinds (§3, "Nodes have a kind
(`Producer`, `Consumer`, `Layer`)"); the engine's own IR is not in the
repository sources. -/
inductive NodeKind where
  | producer
  | consumer
  | layer
deriving DecidableEq, Repr

/-- Modelled from the spec: a Graph IR node (§3): a kind, a name unique within
the graph, and the declared arity (required for producers, optional for
consumers, absent for layers). -/
structure Node where
  kind : NodeKind
  name : String
  arity : Option Nat
deriving DecidableEq, Repr

/-- Modelled from the spec: a Graph IR edge (§3): two node names and an
optional named transfer function (identity if omitted). -/
structure Edge where
  src : String
  dst : String
  fn : Option String
deriving DecidableEq, Repr

/-- Modelled from the spec: the Graph IR (§3), a directed multigraph built by
the parser; nodes and edges are kept in declaration order. -/
structure Graph where
  nodes : List Node
  edges : List Edge
deriving DecidableEq, Repr

end Harmonics

namespace Harmonics

/-! ### Tokens and the tokenizer

Modelled from the spec (§4.1, §6): the textual DSL is whitespace-insensitive,
statements are terminated by `;`, and the only symbols are braces, semicolon,
parentheses and the arrow pieces `-` and `>`. -/

/-- Modelled from the spec: the token alphabet of the textual DSL (§6):
identifiers, integer literals, braces, semicolon, parentheses, dash and
greater-than (the last two forming the arrows `->` and `-(fn)->`). -/
inductive Tok where
  | ident (s : String)
  | num (n : Nat)
  | lbrace
  | rbrace
  | semi
  | lpar
  | rpar
  | dash
  | gt
deriving DecidableEq, Repr

/-- The opening-brace character. -/
def lbraceChar : Char := Char.ofNat 123

/-- The closing-brace character. -/
def rbraceChar : Char := Char.ofNat 125

/-- Numeric value of a decimal digit character. -/
def digitVal (c : Char) : Nat := c.toNat - 48

/-- Value of a list of decimal digit characters, most significant first. -/
def digitsVal (cs : List Char) : Nat := cs.foldl (fun a c => 10 * a + digitVal c) 0

/-- Split a character list at the longest boolean-predicate-satisfying run. -/
def takeWhileC (p : Char → Bool) : List Char → List Char × List Char
  | [] => ([], [])
  | c :: cs =>
    if p c then
      let r := takeWhileC p cs
      (c :: r.1, r.2)
    else ([], c :: cs)

/-- Modelled from the spec: parse-error taxonomy (§7): malformed text,
duplicate names, undeclared endpoints, unterminated blocks are each diagnosed
errors; the engine's parser is not in the repository sources. -/
inductive PErr where
  | badChar
  | unexpectedTok
  | unexpectedEnd
  | duplicateName
  | undeclaredEndpoint
deriving DecidableEq, Repr

/-- Symbol characters of the DSL and the token each stands for. -/
def symTok (c : Char) : Option Tok :=
  if c = lbraceChar then some Tok.lbrace
  else if c = rbraceChar then some Tok.rbrace
  else if c = ';' then some Tok.semi
  else if c = '(' then some Tok.lpar
  else if c = ')' then some Tok.rpar
  else if c = '-' then some Tok.dash
  else if c = '>' then some Tok.gt
  else none

/-- Modelled from the spec: the tokenizer of the whitespace-insensitive
textual DSL (§4.1); identifiers are an alphabetic character followed by
alphanumeric characters, integers are digit runs, and the symbol characters
are those appearing in the grammar of §6.  Fuel-indexed so that the recursion
is structural; every step consumes at least one character, so any fuel above
the input length is enough. -/
def tokenizeF : Nat → List Char → Except PErr (List Tok)
  | 0, _ => Except.error PErr.unexpectedEnd
  | _ + 1, [] => Except.ok []
  | f + 1, c :: cs =>
    if c.isAlpha then
      let r := takeWhileC Char.isAlphanum cs
      (tokenizeF f r.2).map (fun ts => Tok.ident (String.mk (c :: r.1)) :: ts)
    else if c.isDigit then
      let r := takeWhileC Char.isDigit cs
      (tokenizeF f r.2).map (fun ts => Tok.num (digitsVal (c :: r.1)) :: ts)
    else if c.isWhitespace then tokenizeF f cs
    else
      match symTok c with
      | some t => (tokenizeF f cs).map (t :: ·)
      | none => Except.error PErr.badChar

/-- The tokenizer at its canonical fuel. -/
def tokenize (cs : List Char) : Except PErr (List Tok) := tokenizeF (cs.length + 1) cs

/-! ### Statement automaton

Modelled from the spec (§4.1, §6): statements `producer <id>\x7b<int>\x7d;`,
`consumer <id>` with optional `\x7b<int>\x7d`, `layer <id>;`, and a block
`cycle \x7b ... \x7d` whose body is a list of edge chains
`<id> (-> | -(<id>)->) <id> ... ;`.  The parser is a token-at-a-time state
machine folded over the token list. -/

/-- Modelled from the spec: the intermediate states of the statement parser;
each constructor records what has been read of the current statement. -/
inductive PSt where
  | top
  | pName
  | pBrace (n : String)
  | pNum (n : String)
  | pClose (n : String) (a : Nat)
  | pSemi (n : String) (a : Nat)
  | cName
  | cAfter (n : String)
  | cNum (n : String)
  | cClose (n : String) (a : Nat)
  | cSemi (n : String) (a : Nat)
  | lName
  | lSemi (n : String)
  | cyOpen
  | cyBody
  | edgeDash (s : String)
  | edgeAfterDash (s : String)
  | edgeFn (s : String)
  | edgeRPar (s : String) (f : String)
  | edgeDash2 (s : String) (f : String)
  | edgeGt (s : String) (f : String)
  | edgeDst (s : String) (fn : Option String)
  | chainCont (d : String)
deriving DecidableEq, Repr

/-- Accumulated declarations and edges, in declaration order. -/
structure PAcc where
  nodes : List Node
  edges : List Edge
deriving DecidableEq, Repr

/-- Modelled from the spec: one transition of the statement parser on one
token; any token not permitted by the grammar in the current state is a
diagnosed error (§4.1 failure modes). -/
def pstep : PSt → PAcc → Tok → Except PErr (PSt × PAcc)
  | .top, acc, .ident s =>
    if s = "producer" then Except.ok (.pName, acc)
    else if s = "consumer" then Except.ok (.cName, acc)
    else if s = "layer" then Except.ok (.lName, acc)
    else if s = "cycle" then Except.ok (.cyOpen, acc)
    else Except.error PErr.unexpectedTok
  | .pName, acc, .ident n => Except.ok (.pBrace n, acc)
  | .pBrace n, acc, .lbrace => Except.ok (.pNum n, acc)
  | .pNum n, acc, .num a => Except.ok (.pClose n a, acc)
  | .pClose n a, acc, .rbrace => Except.ok (.pSemi n a, acc)
  | .pSemi n a, acc, .semi =>
    Except.ok (.top, ⟨acc.nodes ++ [⟨.producer, n, some a⟩], acc.edges⟩)
  | .cName, acc, .ident n => Except.ok (.cAfter n, acc)
  | .cAfter n, acc, .semi =>
    Except.ok (.top, ⟨acc.nodes ++ [⟨.consumer, n, none⟩], acc.edges⟩)
  | .cAfter n, acc, .lbrace => Except.ok (.cNum n, acc)
  | .cNum n, acc, .num a => Except.ok (.cClose n a, acc)
  | .cClose n a, acc, .rbrace => Except.ok (.cSemi n a, acc)
  | .cSemi n a, acc, .semi =>
    Except.ok (.top, ⟨acc.nodes ++ [⟨.consumer, n, some a⟩], acc.edges⟩)
  | .lName, acc, .ident n => Except.ok (.lSemi n, acc)
  | .lSemi n, acc, .semi =>
    Except.ok (.top, ⟨acc.nodes ++ [⟨.layer, n, none⟩], acc.edges⟩)
  | .cyOpen, acc, .lbrace => Except.ok (.cyBody, acc)
  | .cyBody, acc, .ident s => Except.ok (.edgeDash s, acc)
  | .cyBody, acc, .rbrace => Except.ok (.top, acc)
  | .edgeDash s, acc, .dash => Except.ok (.edgeAfterDash s, acc)
  | .edgeAfterDash s, acc, .gt => Except.ok (.edgeDst s none, acc)
  | .edgeAfterDash s, acc, .lpar => Except.ok (.edgeFn s, acc)
  | .edgeFn s, acc, .ident f => Except.ok (.edgeRPar s f, acc)
  | .edgeRPar s f, acc, .rpar => Except.ok (.edgeDash2 s f, acc)
  | .edgeDash2 s f, acc, .dash => Except.ok (.edgeGt s f, acc)
  | .edgeGt s f, acc, .gt => Except.ok (.edgeDst s (some f), acc)
  | .edgeDst s fn, acc, .ident d =>
    Except.ok (.chainCont d, ⟨acc.nodes, acc.edges ++ [⟨s, d, fn⟩]⟩)
  | .chainCont _, acc, .semi => Except.ok (.cyBody, acc)
  | .chainCont d, acc, .dash => Except.ok (.edgeAfterDash d, acc)
  | _, _, _ => Except.error PErr.unexpectedTok

/-- Fold of `pstep` over a token list. -/
def runP (st : PSt) (acc : PAcc) : List Tok → Except PErr (PSt × PAcc)
  | [] => Except.ok (st, acc)
  | t :: ts => do
    let r ← pstep st acc t
    runP r.1 r.2 ts

/-- True when every name in the list occurs exactly once. -/
def namesUnique : List String → Bool
  | [] => true
  | n :: ns => !(ns.contains n) && namesUnique ns

/-- True when both endpoints of the edge are declared node names. -/
def declaredEdge (ns : List String) (e : Edge) : Bool :=
  ns.contains e.src && ns.contains e.dst

/-- Modelled from the spec: post-collection validation (§4.1): declarations
are collected before edges are resolved, duplicate names and undeclared edge
endpoints are diagnosed errors. -/
def validateAcc (acc : PAcc) : Except PErr Graph :=
  if namesUnique (acc.nodes.map Node.name) then
    if acc.edges.all (declaredEdge (acc.nodes.map Node.name)) then
      Except.ok ⟨acc.nodes, acc.edges⟩
    else Except.error PErr.undeclaredEndpoint
  else Except.error PErr.duplicateName

/-- Modelled from the spec: the token-level parser: run the statement
automaton from the top state; an input ending mid-statement (including an
unterminated `cycle` block) is a diagnosed error. -/
def parseToks (ts : List Tok) : Except PErr Graph := do
  let r ← runP .top ⟨[], []⟩ ts
  match r.1 with
  | .top => validateAcc r.2
  | _ => Except.error PErr.unexpectedEnd

/-- Modelled from the spec: `parse(text) -> Graph | ParseError` (§4.1); the
engine's parser is behind the ABI (`harmonics_parse_graph`) and not in the
repository sources. -/
def parse (s : String) : Except PErr Graph := do
  parseToks (← tokenize s.data)

/-! ### Serialization

Modelled from the spec (§8, round-trip property): the Graph IR can be
re-serialized to a textual description in the grammar of §6.  The canonical
form emits every token followed by a single space, which the
whitespace-insensitive tokenizer accepts. -/

/-- Decimal digit characters of `n`, most significant first; fuel-indexed
(dividing by ten at least halves any positive number, so fuel `n` is enough
for `n`). -/
def natCharsAux : Nat → Nat → List Char
  | 0, _ => []
  | f + 1, n => if n = 0 then [] else natCharsAux f (n / 10) ++ [Char.ofNat (48 + n % 10)]

/-- Canonical decimal representation of a natural number. -/
def natChars (n : Nat) : List Char := if n = 0 then ['0'] else natCharsAux n n

/-- The characters a token is written as. -/
def strOfTok : Tok → List Char
  | .ident s => s.data
  | .num n => natChars n
  | .lbrace => [lbraceChar]
  | .rbrace => [rbraceChar]
  | .semi => [';']
  | .lpar => ['(']
  | .rpar => [')']
  | .dash => ['-']
  | .gt => ['>']

/-- The token sequence of one node declaration statement. -/
def nodeToks : Node → List Tok
  | ⟨.producer, n, a⟩ =>
    [.ident "producer", .ident n, .lbrace, .num (a.getD 0), .rbrace, .semi]
  | ⟨.consumer, n, some a⟩ =>
    [.ident "consumer", .ident n, .lbrace, .num a, .rbrace, .semi]
  | ⟨.consumer, n, none⟩ => [.ident "consumer", .ident n, .semi]
  | ⟨.layer, n, _⟩ => [.ident "layer", .ident n, .semi]

/-- The token sequence of one edge statement inside the `cycle` block. -/
def edgeToks : Edge → List Tok
  | ⟨s, d, none⟩ => [.ident s, .dash, .gt, .ident d, .semi]
  | ⟨s, d, some f⟩ =>
    [.ident s, .dash, .lpar, .ident f, .rpar, .dash, .gt, .ident d, .semi]

/-- The token sequence of a whole graph: all node declarations, then one
`cycle` block holding all edges. -/
def graphToks (g : Graph) : List Tok :=
  (g.nodes.map nodeToks).flatten ++ [.ident "cycle", .lbrace] ++
    (g.edges.map edgeToks).flatten ++ [.rbrace]

/-- Characters of a token stream, one space after every token. -/
def tokStream (ts : List Tok) : List Char :=
  (ts.map (fun t => strOfTok t ++ [' '])).flatten

/-- Modelled from the spec: re-serialization of a Graph IR instance into the
textual DSL (§8); the engine's serializer is behind the ABI and not in the
repository sources. -/
def serializeG (g : Graph) : String := String.mk (tokStream (graphToks g))

/-! ### Well-formedness -/

/-- A valid identifier: an alphabetic character then alphanumeric ones. -/
def validIdentChars : List Char → Bool
  | [] => false
  | c :: cs => c.isAlpha && cs.all Char.isAlphanum

/-- A valid identifier string. -/
def validIdent (s : String) : Bool := validIdentChars s.data

/-- Token well-formedness: identifier tokens hold valid identifiers. -/
def wfTok : Tok → Bool
  | .ident s => validIdent s
  | _ => true

/-- Node well-formedness: a valid identifier name, and the arity shape of §3
(producers carry an arity, layers none). -/
def wfNode : Node → Bool
  | ⟨.producer, n, a⟩ => validIdent n && a.isSome
  | ⟨.consumer, n, _⟩ => validIdent n
  | ⟨.layer, n, a⟩ => validIdent n && a.isNone

/-- Edge well-formedness: valid identifier endpoints and transfer name. -/
def wfEdge (e : Edge) : Bool :=
  validIdent e.src && validIdent e.dst &&
    (match e.fn with | none => true | some f => validIdent f)

/-- Graph well-formedness: well-formed nodes and edges, unique node names,
and every edge endpoint declared (§3 invariants). -/
def wfGraph (g : Graph) : Bool :=
  g.nodes.all wfNode && g.edges.all wfEdge &&
    namesUnique (g.nodes.map Node.name) &&
    g.edges.all (declaredEdge (g.nodes.map Node.name))

/-- Parser-state well-formedness: every identifier remembered by the
statement automaton is a valid identifier. -/
def wfSt : PSt → Bool
  | .pBrace n => validIdent n
  | .pNum n => validIdent n
  | .pClose n _ => validIdent n
  | .pSemi n _ => validIdent n
  | .cAfter n => validIdent n
  | .cNum n => validIdent n
  | .cClose n _ => validIdent n
  | .cSemi n _ => validIdent n
  | .lSemi n => validIdent n
  | .edgeDash s => validIdent s
  | .edgeAfterDash s => validIdent s
  | .edgeFn s => validIdent s
  | .edgeRPar s f => validIdent s && validIdent f
  | .edgeDash2 s f => validIdent s && validIdent f
  | .edgeGt s f => validIdent s && validIdent f
  | .edgeDst s fn =>
    validIdent s && (match fn with | none => true | some f => validIdent f)
  | .chainCont d => validIdent d
  | _ => true

/-- Accumulator well-formedness: all collected nodes and edges well-formed. -/
def wfAcc (acc : PAcc) : Bool :=
  acc.nodes.all wfNode && acc.edges.all wfEdge

end Harmonics

namespace Harmonics

/-! ### Partitioner

Modelled from the spec (§4.2): `auto_partition(graph, backends)` performs a
graph cut assigning every node to exactly one partition, minimizing the
number of crossing edges, breaking ties by the most even node count and then
by declaration order; each crossing edge becomes a synthetic send/receive
boundary pair.  The engine's partitioner is behind the ABI
(`harmonics_auto_partition`) and not in the repository sources.  The cut is
found by exhaustive search over node-to-partition assignments, which realizes
the spec's objective exactly. -/

/-- First position of a name in a list of names. -/
def idxOf : List String → String → Option Nat
  | [], _ => none
  | x :: xs, n => if x = n then some 0 else (idxOf xs n).map (· + 1)

/-- All assignments of `n` nodes (by declaration order) to `k` partitions,
enumerated in lexicographic order (declaration-order tie-break base). -/
def allAssignments : Nat → Nat → List (List Nat)
  | 0, _ => [[]]
  | n + 1, k =>
    ((List.range k).map (fun j => (allAssignments n k).map (fun a => j :: a))).flatten

/-- The partition index a node name is assigned to. -/
def nodePart (g : Graph) (asg : List Nat) (name : String) : Option Nat :=
  (idxOf (g.nodes.map Node.name) name).bind (fun i => asg.get? i)

/-- Whether an edge crosses a partition boundary under an assignment. -/
def crossingB (g : Graph) (asg : List Nat) (e : Edge) : Bool :=
  match nodePart g asg e.src, nodePart g asg e.dst with
  | some i, some j => decide (i ≠ j)
  | _, _ => false

/-- Number of crossing edges (communication cost) of an assignment. -/
def crossCount (g : Graph) (asg : List Nat) : Nat := g.edges.countP (crossingB g asg)

/-- Balance measure: sum of squared partition node counts (smaller is more
even, for a fixed node total). -/
def imbalance (k : Nat) (asg : List Nat) : Nat :=
  ((List.range k).map (fun j => asg.count j * asg.count j)).sum

/-- Strict lexicographic order on (crossing count, imbalance) costs. -/
def costLt (a b : Nat × Nat) : Bool :=
  a.1 < b.1 || (a.1 = b.1 && a.2 < b.2)

/-- First minimum of a list under the lexicographic cost. -/
def argminBy (f : List Nat → Nat × Nat) : List (List Nat) → Option (List Nat)
  | [] => none
  | x :: xs =>
    match argminBy f xs with
    | none => some x
    | some y => if costLt (f y) (f x) then some y else some x

/-- Whether an assignment uses every one of the `k` partitions. -/
def surjAsg (k : Nat) (asg : List Nat) : Bool :=
  (List.range k).all (fun j => asg.contains j)

/-- Candidate assignments: those using all partitions when possible,
otherwise all assignments. -/
def candidates (g : Graph) (k : Nat) : List (List Nat) :=
  let alla := allAssignments g.nodes.length k
  let surj := alla.filter (surjAsg k)
  if surj.isEmpty then alla else surj

/-- The cut chosen by the partitioner: minimal crossing count, then most
even balance, then first in declaration-order enumeration. -/
def bestAsg (g : Graph) (k : Nat) : Option (List Nat) :=
  argminBy (fun a => (crossCount g a, imbalance k a)) (candidates g k)

/-- Modelled from the spec: partition-error taxonomy (§7). -/
inductive PartErr where
  | noAssignment
  | badHandle
deriving DecidableEq, Repr

/-- Modelled from the spec: AUTO backend entries are resolved to a concrete
backend during partitioning based on availability (§4.2); the CPU backend is
always available. -/
def resolveBackend : harmonics_backend_t → harmonics_backend_t
  | .HARMONICS_BACKEND_AUTO => .HARMONICS_BACKEND_CPU
  | b => b

/-- Modelled from the spec: a partition (§3): a Graph restricted to a node
subset plus synthetic boundary send/receive edges, associated with exactly
one backend. -/
structure Partition where
  backend : harmonics_backend_t
  nodes : List Node
  internal : List Edge
  sends : List Edge
  recvs : List Edge
deriving DecidableEq, Repr

/-- The partition for slot `j` under an assignment. -/
def mkPartition (g : Graph) (asg : List Nat) (j : Nat) (b : harmonics_backend_t) :
    Partition where
  backend := resolveBackend b
  nodes := ((g.nodes.zip asg).filter (fun p => p.2 = j)).map Prod.fst
  internal := g.edges.filter
    (fun e => !crossingB g asg e && nodePart g asg e.src = some j)
  sends := g.edges.filter
    (fun e => crossingB g asg e && nodePart g asg e.src = some j)
  recvs := g.edges.filter
    (fun e => crossingB g asg e && nodePart g asg e.dst = some j)

/-- Modelled from the spec: `auto_partition` (§4.2): one partition per
backend slot, in input order; failure to find any assignment is a fatal
partition error. -/
def auto_partition (g : Graph) (bs : List harmonics_backend_t) :
    Except PartErr (List Partition) :=
  match bestAsg g bs.length with
  | none => Except.error PartErr.noAssignment
  | some asg =>
    Except.ok (((List.range bs.length).zip bs).map (fun p => mkPartition g asg p.1 p.2))

/-- Total number of synthetic boundary send edges across a partition list. -/
def totalBoundary (parts : List Partition) : Nat :=
  (parts.map (fun p => p.sends.length)).sum

/-- The self-contained graph a partition executes (§4.2). -/
def partitionGraph (p : Partition) : Graph :=
  ⟨p.nodes, p.internal ++ p.sends ++ p.recvs⟩

/-- Modelled from the spec: the ABI-level partition call
(`harmonics_auto_partition` takes the graph by const pointer and returns an
array of fresh graph handles).  The handle store maps handles (indices) to
graph instances; the call allocates the derived partition graphs at fresh
handles and returns them. -/
def autoPartitionABI (s : List Graph) (h : Nat) (bs : List harmonics_backend_t) :
    List Graph × List Nat :=
  match s.get? h with
  | none => (s, [])
  | some g =>
    match auto_partition g bs with
    | Except.error _ => (s, [])
    | Except.ok parts =>
      (s ++ parts.map partitionGraph, (List.range parts.length).map (· + s.length))

end Harmonics

namespace Harmonics

/-! ### Cycle runtime: dataflow evaluation

Modelled from the spec (§4.3, §5): within one epoch, values are pulled from
producers and propagated along edges in dependency order, applying each
edge's transfer function; boundary channels are single-producer /
single-consumer per edge and deliver the sender's value unchanged, so a
boundary receive reads exactly the value the sending partition computed.
Multi-input combination is not specified by the spec; a node's value is
taken along its first declared in-edge.  The engine's runtime is behind the
ABI and not in the repository sources. -/

/-- Lookup in an association list. -/
def lookupV {α : Type} : List (String × α) → String → Option α
  | [], _ => none
  | (n, v) :: r, m => if n = m then some v else lookupV r m

/-- Transfer-function application: omitted and `id` are the identity, other
names are external kernels given by the interpretation (§1 fixed named
transfer functions). -/
def applyFn {α : Type} (interp : String → α → α) : Option String → α → α
  | none, v => v
  | some f, v => if f = "id" then v else interp f v

/-- First declared in-edge of a node. -/
def firstInEdge (g : Graph) (nm : String) : Option Edge :=
  (g.edges.filter (fun e => e.dst = nm)).head?

/-- First declared node with a given name. -/
def lookupNode (g : Graph) (nm : String) : Option Node :=
  (g.nodes.filter (fun nd => nd.name = nm)).head?

/-- The value of a node given already-computed values: producers emit the
bound source's value for this epoch; other nodes apply their first in-edge's
transfer function to the source endpoint's value (boundary receives read the
sender's computed value through the SPSC channel). -/
def nodeValue {α : Type} (interp : String → α → α) (g : Graph) (inputs : String → α)
    (computed : List (String × α)) (nd : Node) : Option α :=
  match nd.kind with
  | .producer => some (inputs nd.name)
  | _ =>
    match firstInEdge g nd.name with
    | none => none
    | some e => (lookupV computed e.src).map (applyFn interp e.fn)

/-- One scheduling of partition `j`: each of its nodes not yet computed whose
dependency is available is computed, in declaration order. -/
def stepPart {α : Type} (interp : String → α → α) (g : Graph) (asg : List Nat)
    (inputs : String → α) (j : Nat) (computed : List (String × α)) :
    List (String × α) :=
  ((g.nodes.zip asg).filter (fun p => p.2 = j)).foldl (fun acc p =>
    match lookupV acc p.1.name with
    | some _ => acc
    | none =>
      match nodeValue interp g inputs acc p.1 with
      | some v => acc ++ [(p.1.name, v)]
      | none => acc) computed

/-- Run the partitions in the order given by a schedule (the interleaving a
concurrent execution resolves to). -/
def runSched {α : Type} (interp : String → α → α) (g : Graph) (asg : List Nat)
    (inputs : String → α) : List Nat → List (String × α) → List (String × α)
  | [], computed => computed
  | j :: sched, computed =>
    runSched interp g asg inputs sched (stepPart interp g asg inputs j computed)

/-- One distributed epoch from an empty per-epoch state (§3: transient state
is discarded between epochs). -/
def distEpoch {α : Type} (interp : String → α → α) (g : Graph) (asg : List Nat)
    (inputs : String → α) (sched : List Nat) : List (String × α) :=
  runSched interp g asg inputs sched []

/-- Whether every node's value was computed (the epoch completed). -/
def allComputed {α : Type} (g : Graph) (computed : List (String × α)) : Bool :=
  g.nodes.all (fun nd => (lookupV computed nd.name).isSome)

/-- The consumer-observed outputs of one epoch (§4.3 side effects). -/
def consumerOut {α : Type} (g : Graph) (computed : List (String × α)) :
    List (String × Option α) :=
  (g.nodes.filter (fun nd => nd.kind = NodeKind.consumer)).map
    (fun nd => (nd.name, lookupV computed nd.name))

/-- Consumer-observed outputs of a multi-epoch `scheduler_fit` run: the
source sequence gives each producer's per-epoch value, the schedule function
gives the interleaving each epoch happens to use. -/
def schedulerFitOutputs {α : Type} (interp : String → α → α) (g : Graph) (asg : List Nat)
    (src : Nat → String → α) (scheds : Nat → List Nat) (E : Nat) :
    List (List (String × Option α)) :=
  (List.range E).map (fun k => consumerOut g (distEpoch interp g asg (src k) (scheds k)))

/-- Modelled from the spec: the denotational value of a node in one epoch:
producers emit their input; any other node applies its first in-edge's
transfer function to the value of the edge's source. -/
inductive EvalR {α : Type} (interp : String → α → α) (g : Graph)
    (inputs : String → α) : String → α → Prop where
  | prod (nm : String) (nd : Node) (hl : lookupNode g nm = some nd)
      (hk : nd.kind = NodeKind.producer) : EvalR interp g inputs nm (inputs nm)
  | edge (nm : String) (nd : Node) (e : Edge) (w : α)
      (hl : lookupNode g nm = some nd) (hk : nd.kind ≠ NodeKind.producer)
      (he : firstInEdge g nm = some e) (hw : EvalR interp g inputs e.src w) :
      EvalR interp g inputs nm (applyFn interp e.fn w)

/-- The example graph of the scheduler example's text
`producer p{1}; consumer c{1}; layer l1; layer l2;
cycle{ p -(id)-> l1 -(id)-> l2 -> c; }`. -/
def chainGraph : Graph :=
  ⟨[⟨.producer, "p", some 1⟩, ⟨.consumer, "c", some 1⟩,
    ⟨.layer, "l1", none⟩, ⟨.layer, "l2", none⟩],
   [⟨"p", "l1", some "id"⟩, ⟨"l1", "l2", some "id"⟩, ⟨"l2", "c", none⟩]⟩

/-! ### Distributed scheduler: producer binding and fit

Modelled from the spec (§4.4, §7): the scheduler owns one cycle runtime per
partition; `bind_producer` validates partition index and producer name at
bind time; `fit` runs epochs and fails fast on the first runtime error,
reporting which partition and epoch triggered it.  The engine's scheduler is
behind the ABI and not in the repository sources. -/

/-- Modelled from the spec: runtime-error taxonomy (§7). -/
inductive RtErr where
  | unboundProducer (name : String)
  | transport
  | backendFailure
deriving DecidableEq, Repr

/-- Modelled from the spec: binding-error taxonomy (§7). -/
inductive BindErr where
  | badIndex
  | unknownName
deriving DecidableEq, Repr

/-- An error reported by `fit`: which partition and epoch triggered it. -/
structure FitErr where
  partition : Nat
  epoch : Nat
  err : RtErr
deriving DecidableEq, Repr

/-- A cycle-runtime instance: one partition plus its producer bindings
(source handles). -/
structure Runtime where
  part : Partition
  binds : List (String × Nat)
deriving DecidableEq, Repr

/-- The distributed scheduler: one runtime per partition and the secure
transport flag. -/
structure Sched where
  runtimes : List Runtime
  secure : Bool
deriving DecidableEq, Repr

/-- The producer nodes of a partition. -/
def producersOf (p : Partition) : List Node :=
  p.nodes.filter (fun nd => nd.kind = NodeKind.producer)

/-- Modelled from the spec: `create(partitions, backends, secure)` requires
equal lengths (§4.4); runtimes start with no producer bound. -/
def create_distributed_scheduler (parts : List Partition)
    (bs : List harmonics_backend_t) (secure : Bool) : Option Sched :=
  if parts.length = bs.length then
    some ⟨parts.map (fun p => ⟨p, []⟩), secure⟩
  else none

/-- Association-list update; re-binding overwrites the prior association
(§3 producer binding). -/
def bindPut : List (String × Nat) → String → Nat → List (String × Nat)
  | [], nm, v => [(nm, v)]
  | (n, w) :: r, nm, v =>
    if n = nm then (n, v) :: r else (n, w) :: bindPut r nm v

/-- Modelled from the spec: `bind_producer(partition_index, name, source)`
validates the index and that the name resolves to a producer node in that
partition, at bind time; on error the scheduler is returned unchanged. -/
def scheduler_bind_producer (s : Sched) (i : Nat) (nm : String) (src : Nat) :
    Sched × Option BindErr :=
  match s.runtimes.get? i with
  | none => (s, some BindErr.badIndex)
  | some rt =>
    if (producersOf rt.part).any (fun nd => nd.name = nm) then
      (⟨s.runtimes.set i ⟨rt.part, bindPut rt.binds nm src⟩, s.secure⟩, none)
    else (s, some BindErr.unknownName)

/-- Modelled from the spec: `run_epoch()` checks at epoch start that every
producer of the partition is bound; an unbound producer is a runtime
error (§4.3). -/
def runEpoch (rt : Runtime) : Except RtErr Unit :=
  match (producersOf rt.part).find? (fun nd => (lookupV rt.binds nd.name).isNone) with
  | some nd => Except.error (RtErr.unboundProducer nd.name)
  | none => Except.ok ()

/-- First failing runtime of one round, with its partition index. -/
def firstErr : List Runtime → Nat → Option (Nat × RtErr)
  | [], _ => none
  | rt :: rts, i =>
    match runEpoch rt with
    | Except.error e => some (i, e)
    | Except.ok _ => firstErr rts (i + 1)

/-- Auxiliary epoch loop of `fit`: runs the remaining epochs, failing fast
with the current epoch number on the first error. -/
def fitGo (s : Sched) : Nat → Nat → Except FitErr Nat
  | 0, k => Except.ok k
  | e + 1, k =>
    match firstErr s.runtimes 0 with
    | some pe => Except.error ⟨pe.1, k, pe.2⟩
    | none => fitGo s e (k + 1)

/-- Modelled from the spec: `scheduler_fit(epochs)`: runs `epochs` rounds,
returning the number of completed epochs or the first partition-level
failure, with no automatic retry (§4.4, §7). -/
def scheduler_fit (s : Sched) (epochs : Nat) : Except FitErr Nat :=
  fitGo s epochs 0

/-- Whether some partition of the scheduler has an unbound producer. -/
def hasUnbound (s : Sched) : Bool :=
  s.runtimes.any (fun rt =>
    (producersOf rt.part).any (fun nd => (lookupV rt.binds nd.name).isNone))

/-! ### Epoch-barrier step relation

Modelled from the spec (§5): partitions execute concurrently; the scheduler
enforces a global barrier at each epoch boundary — no partition begins epoch
k+1 until all partitions have completed epoch k and all of that epoch's
boundary sends have been delivered.  The concurrent execution is modelled as
an interleaving step relation over begin/complete/deliver events. -/

/-- Static shape of a distributed run: number of partitions, number of
boundary edges, and each boundary edge's sending partition. -/
structure BarCfg where
  P : Nat
  B : Nat
  sender : Nat → Nat

/-- Progress counters: epochs begun and completed per partition, and epochs
delivered per boundary edge. -/
structure BarSt where
  started : Nat → Nat
  done : Nat → Nat
  deliv : Nat → Nat

/-- The events of a distributed run. -/
inductive Ev where
  | beginE (p k : Nat)
  | endE (p k : Nat)
  | deliver (e k : Nat)
deriving DecidableEq, Repr

/-- Bump a counter at one index. -/
def bump (f : Nat → Nat) (p : Nat) : Nat → Nat :=
  fun q => if q = p then f q + 1 else f q

/-- The initial state: nothing begun, completed or delivered. -/
def barInit : BarSt := ⟨fun _ => 0, fun _ => 0, fun _ => 0⟩

/-- Modelled from the spec: one interleaving step (§5).  A partition may
begin epoch k only when it is idle after k epochs and the barrier for epoch
k-1 holds: every partition has completed all epochs below k and every
boundary send of those epochs has been delivered.  A partition completes the
epoch it is running.  A boundary edge delivers its epoch-k send once its
sending partition has begun epoch k, in epoch order. -/
inductive barStep (cfg : BarCfg) : BarSt → Ev → BarSt → Prop where
  | beginS (s : BarSt) (p k : Nat) (hp : p < cfg.P)
      (hidle : s.started p = k) (hdone : s.done p = k)
      (hbar : ∀ q, q < cfg.P → k ≤ s.done q)
      (hdel : ∀ e, e < cfg.B → k ≤ s.deliv e) :
      barStep cfg s (Ev.beginE p k) ⟨bump s.started p, s.done, s.deliv⟩
  | endS (s : BarSt) (p k : Nat) (hp : p < cfg.P)
      (hrun : s.started p = k + 1) (hdone : s.done p = k) :
      barStep cfg s (Ev.endE p k) ⟨s.started, bump s.done p, s.deliv⟩
  | deliverS (s : BarSt) (e k : Nat) (he : e < cfg.B)
      (hcur : s.deliv e = k) (hsent : k < s.started (cfg.sender e)) :
      barStep cfg s (Ev.deliver e k) ⟨s.started, s.done, bump s.deliv e⟩

/-- A run of the step relation producing a trace of events. -/
inductive barSteps (cfg : BarCfg) : BarSt → List Ev → BarSt → Prop where
  | nil (s : BarSt) : barSteps cfg s [] s
  | cons (s s1 s2 : BarSt) (ev : Ev) (tr : List Ev)
      (h1 : barStep cfg s ev s1) (h2 : barSteps cfg s1 tr s2) :
      barSteps cfg s (ev :: tr) s2

/-- The partition of `chainGraph`'s first two declaration-order slots that
`auto_partition` selects for two CPU backends (nodes `p`, `l1`; it sends the
crossing edge `l1 -> l2`). -/
def examplePartition0 : Partition :=
  ⟨.HARMONICS_BACKEND_CPU,
   [⟨.producer, "p", some 1⟩, ⟨.layer, "l1", none⟩],
   [⟨"p", "l1", some "id"⟩], [⟨"l1", "l2", some "id"⟩], []⟩

/-- The second partition `auto_partition` selects for two CPU backends
(nodes `c`, `l2`; it receives the crossing edge `l1 -> l2`). -/
def examplePartition1 : Partition :=
  ⟨.HARMONICS_BACKEND_CPU,
   [⟨.consumer, "c", some 1⟩, ⟨.layer, "l2", none⟩],
   [⟨"l2", "c", none⟩], [], [⟨"l1", "l2", some "id"⟩]⟩

/-- The single partition `auto_partition` selects for one CPU backend: the
whole graph, with no boundary edges. -/
def exampleWholePartition : Partition :=
  ⟨.HARMONICS_BACKEND_CPU, chainGraph.nodes, chainGraph.edges, [], []⟩

/-- The scheduler of the `rust_scheduler_example`: the two chain partitions,
plain transport, and no producer ever bound. -/
def exampleSched : Sched :=
  ⟨[⟨examplePartition0, []⟩, ⟨examplePartition1, []⟩], false⟩

end Harmonics

/-- C10: the backend tag type passed across the ABI has exactly five variants
with fixed discriminants CPU=0, GPU=1, FPGA=2, WASM=3, AUTO=4, and every
constructible backend value is one of these five. -/
theorem C10_backend_enum :
    (∀ b : Harmonics.harmonics_backend_t,
        b = .HARMONICS_BACKEND_CPU ∨ b = .HARMONICS_BACKEND_GPU ∨
        b = .HARMONICS_BACKEND_FPGA ∨ b = .HARMONICS_BACKEND_WASM ∨
        b = .HARMONICS_BACKEND_AUTO) ∧
    Harmonics.backendTag .HARMONICS_BACKEND_CPU = 0 ∧
    Harmonics.backendTag .HARMONICS_BACKEND_GPU = 1 ∧
    Harmonics.backendTag .HARMONICS_BACKEND_FPGA = 2 ∧
    Harmonics.backendTag .HARMONICS_BACKEND_WASM = 3 ∧
    Harmonics.backendTag .HARMONICS_BACKEND_AUTO = 4 := by
  refine ⟨fun b => ?_, rfl, rfl, rfl, rfl, rfl⟩
  cases b <;> simp

namespace Harmonics

/-! ### Tokenizer lemmas -/

theorem takeWhileC_rest_length (p : Char → Bool) :
    ∀ cs : List Char, (takeWhileC p cs).2.length ≤ cs.length := by
  intro cs
  induction cs with
  | nil => simp [takeWhileC]
  | cons c cs ih =>
    by_cases h : p c
    · simp only [takeWhileC, h, if_true]
      exact le_trans ih (Nat.le_succ _)
    · simp [takeWhileC, h]

theorem takeWhileC_all_append (p : Char → Bool) (xs : List Char) (y : Char) (ys : List Char)
    (h1 : xs.all p = true) (h2 : p y = false) :
    takeWhileC p (xs ++ y :: ys) = (xs, y :: ys) := by
  induction xs with
  | nil => simp [takeWhileC, h2]
  | cons x xs ih =>
    simp only [List.all_cons, Bool.and_eq_true] at h1
    simp [takeWhileC, h1.1, ih h1.2]

theorem tokenizeF_mono :
    ∀ (f g : Nat) (cs : List Char), cs.length < f → cs.length < g →
      tokenizeF f cs = tokenizeF g cs := by
  intro f
  induction f with
  | zero => exact fun g cs hf _ => absurd hf (Nat.not_lt_zero _)
  | succ f ih =>
    intro g cs hf hg
    cases g with
    | zero => exact absurd hg (Nat.not_lt_zero _)
    | succ g =>
      cases cs with
      | nil => rfl
      | cons c cs =>
        simp only [List.length_cons, Nat.succ_lt_succ_iff] at hf hg
        simp only [tokenizeF]
        by_cases ha : c.isAlpha
        · simp only [ha, if_true]
          rw [ih g _ (lt_of_le_of_lt (takeWhileC_rest_length _ cs) hf)
            (lt_of_le_of_lt (takeWhileC_rest_length _ cs) hg)]
        · by_cases hd : c.isDigit
          · simp only [ha, hd]
            simp only [Bool.false_eq_true, if_false, if_true]
            rw [ih g _ (lt_of_le_of_lt (takeWhileC_rest_length _ cs) hf)
              (lt_of_le_of_lt (takeWhileC_rest_length _ cs) hg)]
          · by_cases hw : c.isWhitespace
            · simp only [ha, hd, hw]
              simp only [Bool.false_eq_true, if_false, if_true]
              exact ih g cs hf hg
            · simp only [ha, hd, hw]
              simp only [Bool.false_eq_true, if_false]
              cases hsym : symTok c with
              | some t => rw [ih g cs hf hg]
              | none => rfl

theorem digitsVal_append_singleton (xs : List Char) (c : Char) :
    digitsVal (xs ++ [c]) = 10 * digitsVal xs + digitVal c := by
  simp [digitsVal, List.foldl_append]

theorem digitChar_spec (d : Nat) (hd : d < 10) :
    (Char.ofNat (48 + d)).isDigit = true ∧ (Char.ofNat (48 + d)).isAlpha = false ∧
      digitVal (Char.ofNat (48 + d)) = d := by
  interval_cases d <;> exact ⟨by decide, by decide, by decide⟩

theorem natCharsAux_digitsVal : ∀ (f n : Nat), n ≤ f → digitsVal (natCharsAux f n) = n := by
  intro f
  induction f with
  | zero =>
    intro n h
    interval_cases n
    rfl
  | succ f ih =>
    intro n h
    by_cases h0 : n = 0
    · subst h0; rfl
    · have hdiv : n / 10 ≤ f := by
        have : n / 10 < n := Nat.div_lt_self (Nat.pos_of_ne_zero h0) (by norm_num)
        omega
      have hm : n % 10 < 10 := Nat.mod_lt _ (by norm_num)
      simp only [natCharsAux, h0, if_false]
      rw [digitsVal_append_singleton, ih _ hdiv, (digitChar_spec _ hm).2.2]
      omega

theorem natCharsAux_good : ∀ (f n : Nat),
    (natCharsAux f n).all (fun c => c.isDigit && !c.isAlpha) = true := by
  intro f
  induction f with
  | zero => intro n; rfl
  | succ f ih =>
    intro n
    by_cases h0 : n = 0
    · subst h0; rfl
    · have hm : n % 10 < 10 := Nat.mod_lt _ (by norm_num)
      simp only [natCharsAux, h0, if_false, List.all_append, List.all_cons, List.all_nil,
        Bool.and_eq_true]
      refine ⟨ih _, ?_, trivial⟩
      simp [(digitChar_spec _ hm).1, (digitChar_spec _ hm).2.1]

theorem natChars_good (n : Nat) :
    (natChars n).all (fun c => c.isDigit && !c.isAlpha) = true := by
  unfold natChars
  by_cases h0 : n = 0
  · subst h0; rfl
  · simp only [h0, if_false]
    exact natCharsAux_good n n

theorem natChars_ne_nil (n : Nat) : natChars n ≠ [] := by
  unfold natChars
  by_cases h0 : n = 0
  · subst h0; simp
  · simp only [h0, if_false]
    cases n with
    | zero => exact absurd rfl h0
    | succ m =>
      simp [natCharsAux]

theorem digitsVal_natChars (n : Nat) : digitsVal (natChars n) = n := by
  unfold natChars
  by_cases h0 : n = 0
  · subst h0; rfl
  · simp only [h0, if_false]
    exact natCharsAux_digitsVal n n le_rfl

theorem string_mk_data (s : String) : String.mk s.data = s := by
  cases s; rfl

end Harmonics

namespace Harmonics

theorem tokenize_chunk (t : Tok) (rest : List Char) (h : wfTok t = true) :
    tokenize (strOfTok t ++ ' ' :: rest) = (tokenize rest).map (t :: ·) := by
  cases t with
  | ident s =>
    obtain ⟨l⟩ := s
    cases l with
    | nil => exact absurd h (by simp [wfTok, validIdent, validIdentChars])
    | cons c cs =>
      simp only [wfTok, validIdent, validIdentChars, Bool.and_eq_true] at h
      obtain ⟨ha, hall⟩ := h
      show tokenize (c :: (cs ++ ' ' :: rest)) = _
      simp only [tokenize, List.length_cons]
      simp only [tokenizeF, ha, if_true]
      rw [takeWhileC_all_append _ cs ' ' rest hall (by decide)]
      simp only [tokenizeF]
      have h1 : (' ').isAlpha = false := by decide
      have h2 : (' ').isDigit = false := by decide
      have h3 : (' ').isWhitespace = true := by decide
      simp only [h1, h2, h3, Bool.false_eq_true, if_false, if_true]
      rw [tokenizeF_mono ((cs ++ ' ' :: rest).length) (rest.length + 1) rest
        (by simp; omega) (by omega)]
  | num n =>
    obtain ⟨c, cs, hnc⟩ := List.exists_cons_of_ne_nil (natChars_ne_nil n)
    have hgood := natChars_good n
    rw [hnc] at hgood
    simp only [List.all_cons, Bool.and_eq_true] at hgood
    obtain ⟨⟨hcd, hcna⟩, hcs⟩ := hgood
    have hcsd : cs.all Char.isDigit = true := by
      rw [List.all_eq_true] at hcs ⊢
      intro x hx
      have := hcs x hx
      simp only [Bool.and_eq_true] at this
      exact this.1
    have hna : c.isAlpha = false := by simpa using hcna
    show tokenize (strOfTok (Tok.num n) ++ ' ' :: rest) = _
    simp only [strOfTok]
    rw [hnc]
    show tokenize (c :: (cs ++ ' ' :: rest)) = _
    simp only [tokenize, List.length_cons]
    simp only [tokenizeF, hna, hcd, Bool.false_eq_true, if_false, if_true]
    rw [takeWhileC_all_append _ cs ' ' rest hcsd (by decide)]
    have hval : digitsVal (c :: cs) = n := by rw [← hnc]; exact digitsVal_natChars n
    simp only [tokenizeF]
    have h1 : (' ').isAlpha = false := by decide
    have h2 : (' ').isDigit = false := by decide
    have h3 : (' ').isWhitespace = true := by decide
    simp only [h1, h2, h3, Bool.false_eq_true, if_false, if_true]
    rw [tokenizeF_mono ((cs ++ ' ' :: rest).length) (rest.length + 1) rest
      (by simp; omega) (by omega), hval]
  | lbrace => rfl
  | rbrace => rfl
  | semi => rfl
  | lpar => rfl
  | rpar => rfl
  | dash => rfl
  | gt => rfl

theorem tokStream_cons (t : Tok) (ts : List Tok) :
    tokStream (t :: ts) = strOfTok t ++ ' ' :: tokStream ts := by
  simp [tokStream]

theorem tokenize_tokStream : ∀ ts : List Tok, ts.all wfTok = true →
    tokenize (tokStream ts) = Except.ok ts := by
  intro ts
  induction ts with
  | nil => intro _; rfl
  | cons t ts ih =>
    intro h
    simp only [List.all_cons, Bool.and_eq_true] at h
    rw [tokStream_cons, tokenize_chunk t _ h.1, ih h.2]
    rfl

end Harmonics

namespace Harmonics

/-! ### Statement automaton lemmas -/

theorem ok_bind {e a b : Type} (x : a) (f : a → Except e b) :
    ((Except.ok x : Except e a) >>= f) = f x := rfl

theorem error_bind {e a b : Type} (err : e) (f : a → Except e b) :
    ((Except.error err : Except e a) >>= f) = Except.error err := rfl

theorem runP_append (st : PSt) (acc : PAcc) (ts us : List Tok) :
    runP st acc (ts ++ us) = (do
      let r ← runP st acc ts
      runP r.1 r.2 us) := by
  induction ts generalizing st acc with
  | nil => rfl
  | cons t ts ih =>
    show runP st acc (t :: (ts ++ us)) = _
    simp only [runP]
    cases pstep st acc t with
    | error e => rfl
    | ok r =>
      simp only [ok_bind]
      exact ih r.1 r.2

theorem runP_nodeToks (nd : Node) (h : wfNode nd = true) (acc : PAcc) :
    runP .top acc (nodeToks nd) =
      Except.ok (.top, ⟨acc.nodes ++ [nd], acc.edges⟩) := by
  obtain ⟨k, n, a⟩ := nd
  cases k with
  | producer =>
    cases a with
    | none => simp [wfNode] at h
    | some x => rfl
  | consumer =>
    cases a with
    | none => rfl
    | some x => rfl
  | layer =>
    cases a with
    | none => rfl
    | some x => simp [wfNode] at h

theorem runP_edgeToks (e : Edge) (acc : PAcc) :
    runP .cyBody acc (edgeToks e) =
      Except.ok (.cyBody, ⟨acc.nodes, acc.edges ++ [e]⟩) := by
  obtain ⟨s, d, fn⟩ := e
  cases fn with
  | none => rfl
  | some f => rfl

theorem runP_nodes : ∀ (nds : List Node) (acc : PAcc), nds.all wfNode = true →
    runP .top acc ((nds.map nodeToks).flatten) =
      Except.ok (.top, ⟨acc.nodes ++ nds, acc.edges⟩) := by
  intro nds
  induction nds with
  | nil =>
    intro acc _
    show Except.ok (PSt.top, acc) = _
    simp
  | cons nd nds ih =>
    intro acc h
    simp only [List.all_cons, Bool.and_eq_true] at h
    simp only [List.map_cons, List.flatten_cons]
    rw [runP_append, runP_nodeToks nd h.1 acc]
    simp only [ok_bind]
    rw [ih _ h.2]
    simp

theorem runP_edges : ∀ (es : List Edge) (acc : PAcc),
    runP .cyBody acc ((es.map edgeToks).flatten) =
      Except.ok (.cyBody, ⟨acc.nodes, acc.edges ++ es⟩) := by
  intro es
  induction es with
  | nil =>
    intro acc
    show Except.ok (PSt.cyBody, acc) = _
    simp
  | cons e es ih =>
    intro acc
    simp only [List.map_cons, List.flatten_cons]
    rw [runP_append, runP_edgeToks e acc]
    simp only [ok_bind]
    rw [ih _]
    simp

theorem runP_graphToks (g : Graph) (h1 : g.nodes.all wfNode = true) :
    runP .top ⟨[], []⟩ (graphToks g) = Except.ok (.top, ⟨g.nodes, g.edges⟩) := by
  unfold graphToks
  rw [List.append_assoc, List.append_assoc, runP_append, runP_nodes _ _ h1]
  simp only [ok_bind, List.nil_append]
  have hcy : ∀ (acc : PAcc) (X : List Tok),
      runP .top acc ([Tok.ident "cycle", Tok.lbrace] ++ X) = runP .cyBody acc X :=
    fun acc X => rfl
  rw [hcy]
  rw [runP_append, runP_edges]
  simp only [ok_bind]
  rfl

end Harmonics

namespace Harmonics

/-! ### Serialization produces well-formed token streams -/

theorem wfTok_nodeToks (nd : Node) (h : wfNode nd = true) :
    (nodeToks nd).all wfTok = true := by
  obtain ⟨k, n, a⟩ := nd
  cases k with
  | producer =>
    simp only [wfNode, Bool.and_eq_true] at h
    cases a with
    | none => simp at h
    | some x =>
      simp [nodeToks, wfTok, h.1]
      rfl
  | consumer =>
    simp only [wfNode] at h
    cases a with
    | none =>
      simp [nodeToks, wfTok, h]
      rfl
    | some x =>
      simp [nodeToks, wfTok, h]
      rfl
  | layer =>
    simp only [wfNode, Bool.and_eq_true] at h
    simp [nodeToks, wfTok, h.1]
    rfl

theorem wfTok_edgeToks (e : Edge) (h : wfEdge e = true) :
    (edgeToks e).all wfTok = true := by
  obtain ⟨s, d, fn⟩ := e
  simp only [wfEdge, Bool.and_eq_true] at h
  cases fn with
  | none => simp [edgeToks, wfTok, h.1.1, h.1.2]
  | some f =>
    simp only at h
    simp [edgeToks, wfTok, h.1.1, h.1.2, h.2]

theorem all_flatten {p : Tok → Bool} : ∀ (ls : List (List Tok)),
    (∀ l ∈ ls, l.all p = true) → ls.flatten.all p = true := by
  intro ls
  induction ls with
  | nil => intro _; rfl
  | cons l ls ih =>
    intro h
    simp only [List.flatten_cons, List.all_append, Bool.and_eq_true]
    exact ⟨h l (by simp), ih (fun x hx => h x (by simp [hx]))⟩

theorem wfTok_graphToks (g : Graph) (hn : g.nodes.all wfNode = true)
    (he : g.edges.all wfEdge = true) :
    (graphToks g).all wfTok = true := by
  unfold graphToks
  simp only [List.all_append, Bool.and_eq_true]
  rw [List.all_eq_true] at hn he
  refine ⟨⟨⟨?_, by decide⟩, ?_⟩, by decide⟩
  · exact all_flatten _ (by
      intro l hl
      rw [List.mem_map] at hl
      obtain ⟨nd, hnd, rfl⟩ := hl
      exact wfTok_nodeToks nd (hn nd hnd))
  · exact all_flatten _ (by
      intro l hl
      rw [List.mem_map] at hl
      obtain ⟨e, hee, rfl⟩ := hl
      exact wfTok_edgeToks e (he e hee))

theorem parse_serializeG (g : Graph) (h : wfGraph g = true) :
    parse (serializeG g) = Except.ok g := by
  unfold wfGraph at h
  simp only [Bool.and_eq_true] at h
  obtain ⟨⟨⟨hn, he⟩, hu⟩, hd⟩ := h
  unfold parse serializeG
  have hdata : (String.mk (tokStream (graphToks g))).data = tokStream (graphToks g) := rfl
  rw [hdata, tokenize_tokStream _ (wfTok_graphToks g hn he)]
  show parseToks (graphToks g) = Except.ok g
  unfold parseToks
  rw [runP_graphToks g hn]
  show validateAcc ⟨g.nodes, g.edges⟩ = Except.ok g
  unfold validateAcc
  simp only [hu, hd, if_true]

end Harmonics

namespace Harmonics

/-! ### Parsed graphs are well-formed -/

theorem takeWhileC_taken_all (p : Char → Bool) :
    ∀ cs : List Char, (takeWhileC p cs).1.all p = true := by
  intro cs
  induction cs with
  | nil => rfl
  | cons c cs ih =>
    by_cases h : p c
    · simp [takeWhileC, h, ih]
    · simp [takeWhileC, h]

theorem map_eq_ok {e a b : Type} (f : a → b) (x : Except e a) (y : b)
    (h : x.map f = Except.ok y) : ∃ z, x = Except.ok z ∧ y = f z := by
  cases x with
  | error err => simp [Except.map] at h
  | ok z =>
    refine ⟨z, rfl, ?_⟩
    simp only [Except.map] at h
    cases h
    rfl

theorem tokenizeF_wfTok : ∀ (f : Nat) (cs : List Char) (ts : List Tok),
    tokenizeF f cs = Except.ok ts → ts.all wfTok = true := by
  intro f
  induction f with
  | zero =>
    intro cs ts h
    exact absurd h (by simp [tokenizeF])
  | succ f ih =>
    intro cs ts h
    cases cs with
    | nil =>
      simp only [tokenizeF, Except.ok.injEq] at h
      subst h
      rfl
    | cons c cs =>
      simp only [tokenizeF] at h
      by_cases ha : c.isAlpha
      · rw [if_pos ha] at h
        obtain ⟨ts', hts', rfl⟩ := map_eq_ok _ _ _ h
        simp only [List.all_cons, Bool.and_eq_true]
        refine ⟨?_, ih _ _ hts'⟩
        simp [wfTok, validIdent, validIdentChars, ha, takeWhileC_taken_all]
      · rw [if_neg ha] at h
        by_cases hd : c.isDigit
        · rw [if_pos hd] at h
          obtain ⟨ts', hts', rfl⟩ := map_eq_ok _ _ _ h
          simp only [List.all_cons, Bool.and_eq_true]
          exact ⟨rfl, ih _ _ hts'⟩
        · rw [if_neg hd] at h
          by_cases hw : c.isWhitespace
          · rw [if_pos hw] at h
            exact ih _ _ h
          · rw [if_neg hw] at h
            cases hsym : symTok c with
            | none =>
              rw [hsym] at h
              cases h
            | some t =>
              rw [hsym] at h
              obtain ⟨ts', hts', rfl⟩ := map_eq_ok _ _ _ h
              simp only [List.all_cons, Bool.and_eq_true]
              refine ⟨?_, ih _ _ hts'⟩
              unfold symTok at hsym
              split_ifs at hsym <;> (cases hsym; rfl)

theorem tokenize_wfTok (cs : List Char) (ts : List Tok)
    (h : tokenize cs = Except.ok ts) : ts.all wfTok = true :=
  tokenizeF_wfTok _ _ _ h

end Harmonics

namespace Harmonics

set_option maxHeartbeats 2000000 in
theorem pstep_preserve (st : PSt) (acc : PAcc) (t : Tok) (r : PSt × PAcc)
    (h : pstep st acc t = Except.ok r)
    (hst : wfSt st = true) (hacc : wfAcc acc = true) (ht : wfTok t = true) :
    wfSt r.1 = true ∧ wfAcc r.2 = true := by
  obtain ⟨nds, eds⟩ := acc
  cases st <;> cases t <;> simp only [pstep] at h
  all_goals try (cases h)
  all_goals try (simp_all [wfSt, wfAcc, wfNode, wfEdge, wfTok, List.all_append])
  · split_ifs at h
    all_goals cases h
    all_goals simp_all [wfSt, wfAcc]

end Harmonics

namespace Harmonics

theorem runP_preserve : ∀ (ts : List Tok) (st : PSt) (acc : PAcc) (r : PSt × PAcc),
    runP st acc ts = Except.ok r → wfSt st = true → wfAcc acc = true →
    ts.all wfTok = true → wfSt r.1 = true ∧ wfAcc r.2 = true := by
  intro ts
  induction ts with
  | nil =>
    intro st acc r h hst hacc _
    cases h
    exact ⟨hst, hacc⟩
  | cons t ts ih =>
    intro st acc r h hst hacc hts
    simp only [List.all_cons, Bool.and_eq_true] at hts
    simp only [runP] at h
    cases hp : pstep st acc t with
    | error e =>
      rw [hp] at h
      cases h
    | ok r1 =>
      rw [hp] at h
      simp only [ok_bind] at h
      have h1 := pstep_preserve st acc t r1 hp hst hacc hts.1
      exact ih r1.1 r1.2 r h h1.1 h1.2 hts.2

theorem parse_wfGraph (s : String) (g : Graph) (h : parse s = Except.ok g) :
    wfGraph g = true := by
  unfold parse at h
  cases htk : tokenize s.data with
  | error e =>
    rw [htk] at h
    cases h
  | ok ts =>
    rw [htk] at h
    simp only [ok_bind] at h
    have hwt := tokenize_wfTok _ _ htk
    unfold parseToks at h
    cases hrun : runP .top ⟨[], []⟩ ts with
    | error e =>
      rw [hrun] at h
      cases h
    | ok r =>
      rw [hrun] at h
      simp only [ok_bind] at h
      have hpres := runP_preserve ts .top ⟨[], []⟩ r hrun rfl rfl hwt
      obtain ⟨st, acc⟩ := r
      cases st <;> try (cases h)
      -- st = .top : h : validateAcc acc = ok g
      change validateAcc acc = Except.ok g at h
      unfold validateAcc at h
      by_cases hu : namesUnique (acc.nodes.map Node.name) = true
      · rw [if_pos hu] at h
        by_cases hd : acc.edges.all (declaredEdge (acc.nodes.map Node.name)) = true
        · rw [if_pos hd] at h
          cases h
          unfold wfGraph
          simp only [Bool.and_eq_true]
          have hacc := hpres.2
          unfold wfAcc at hacc
          simp only [Bool.and_eq_true] at hacc
          exact ⟨⟨⟨hacc.1, hacc.2⟩, hu⟩, hd⟩
        · rw [if_neg hd] at h
          cases h
      · rw [if_neg hu] at h
        cases h

end Harmonics

/-- C6: for every valid graph text, parsing, re-serializing the resulting
Graph, and re-parsing yields a structurally identical Graph (parse/serialize
round-trip). -/
theorem C6_parse_serialize_roundtrip (s : String) (g : Harmonics.Graph)
    (h : Harmonics.parse s = Except.ok g) :
    Harmonics.parse (Harmonics.serializeG g) = Except.ok g :=
  Harmonics.parse_serializeG g (Harmonics.parse_wfGraph s g h)

/-- C6 witness: the round-trip theorem applied to the scheduler example's
graph text. -/
theorem C6_parse_serialize_roundtrip_witness :
    Harmonics.parse
        (Harmonics.serializeG
          ⟨[⟨.producer, "p", some 1⟩, ⟨.consumer, "c", some 1⟩,
            ⟨.layer, "l1", none⟩, ⟨.layer, "l2", none⟩],
           [⟨"p", "l1", some "id"⟩, ⟨"l1", "l2", some "id"⟩, ⟨"l2", "c", none⟩]⟩) =
      Except.ok
        ⟨[⟨.producer, "p", some 1⟩, ⟨.consumer, "c", some 1⟩,
          ⟨.layer, "l1", none⟩, ⟨.layer, "l2", none⟩],
         [⟨"p", "l1", some "id"⟩, ⟨"l1", "l2", some "id"⟩, ⟨"l2", "c", none⟩]⟩ :=
  C6_parse_serialize_roundtrip
    "producer p\x7b1\x7d; consumer c\x7b1\x7d; layer l1; layer l2; cycle\x7b p -(id)-> l1 -(id)-> l2 -> c; \x7d"
    _ (by rfl)

namespace Harmonics

/-! ### Partitioner lemmas -/

theorem costLt_irrefl (a : Nat × Nat) : costLt a a = false := by
  simp [costLt]

theorem costLt_notlt_trans {a b c : Nat × Nat} (h1 : costLt b a = false)
    (h2 : costLt c b = false) : costLt c a = false := by
  simp only [costLt, Bool.or_eq_false_iff, Bool.and_eq_false_iff,
    decide_eq_false_iff_not, not_lt] at h1 h2 ⊢
  omega

theorem costLt_asymm {a b : Nat × Nat} (h : costLt a b = true) : costLt b a = false := by
  simp only [costLt, Bool.or_eq_true, Bool.and_eq_true, decide_eq_true_eq] at h
  simp only [costLt, Bool.or_eq_false_iff, Bool.and_eq_false_iff,
    decide_eq_false_iff_not, not_lt]
  omega

theorem argminBy_eq_none (f : List Nat → Nat × Nat) :
    ∀ l : List (List Nat), argminBy f l = none ↔ l = [] := by
  intro l
  cases l with
  | nil => simp [argminBy]
  | cons x xs =>
    simp only [argminBy]
    cases argminBy f xs with
    | none => simp
    | some y =>
      by_cases hc : costLt (f y) (f x) = true
      · simp [hc]
      · simp [hc]

theorem argminBy_mem (f : List Nat → Nat × Nat) :
    ∀ (l : List (List Nat)) (m : List Nat), argminBy f l = some m → m ∈ l := by
  intro l
  induction l with
  | nil => intro m h; cases h
  | cons x xs ih =>
    intro m h
    cases har : argminBy f xs with
    | none =>
      simp only [argminBy, har] at h
      cases h
      simp
    | some y =>
      simp only [argminBy, har] at h
      by_cases hc : costLt (f y) (f x) = true
      · rw [if_pos hc] at h
        cases h
        exact List.mem_cons_of_mem _ (ih m har)
      · rw [if_neg hc] at h
        cases h
        simp

theorem argminBy_min (f : List Nat → Nat × Nat) :
    ∀ (l : List (List Nat)) (m : List Nat), argminBy f l = some m →
      ∀ x ∈ l, costLt (f x) (f m) = false := by
  intro l
  induction l with
  | nil => intro m h; cases h
  | cons x xs ih =>
    intro m h z hz
    cases har : argminBy f xs with
    | none =>
      simp only [argminBy, har] at h
      cases h
      rcases List.mem_cons.mp hz with rfl | hz2
      · exact costLt_irrefl _
      · rw [(argminBy_eq_none f xs).mp har] at hz2
        cases hz2
    | some y =>
      simp only [argminBy, har] at h
      by_cases hc : costLt (f y) (f x) = true
      · rw [if_pos hc] at h
        cases h
        rcases List.mem_cons.mp hz with rfl | hz2
        · exact costLt_asymm hc
        · exact ih m har z hz2
      · rw [if_neg hc] at h
        cases h
        rcases List.mem_cons.mp hz with rfl | hz2
        · exact costLt_irrefl _
        · have hyx : costLt (f y) (f x) = false := by
            cases hcc : costLt (f y) (f x)
            · rfl
            · exact absurd hcc hc
          exact costLt_notlt_trans hyx (ih y har z hz2)

end Harmonics

namespace Harmonics

theorem mem_allAssignments : ∀ (n k : Nat) (a : List Nat),
    a ∈ allAssignments n k ↔ a.length = n ∧ ∀ x ∈ a, x < k := by
  intro n
  induction n with
  | zero =>
    intro k a
    simp only [allAssignments, List.mem_singleton]
    constructor
    · rintro rfl
      simp
    · rintro ⟨h, _⟩
      exact List.eq_nil_of_length_eq_zero h
  | succ n ih =>
    intro k a
    simp only [allAssignments, List.mem_flatten, List.mem_map]
    constructor
    · rintro ⟨l, ⟨j, hj, rfl⟩, ha⟩
      rw [List.mem_map] at ha
      obtain ⟨a2, ha2, rfl⟩ := ha
      rw [List.mem_range] at hj
      have hspec := (ih k a2).mp ha2
      refine ⟨by simp [hspec.1], ?_⟩
      intro x hx
      rcases List.mem_cons.mp hx with rfl | hx2
      · exact hj
      · exact hspec.2 x hx2
    · rintro ⟨hlen, hbound⟩
      cases a with
      | nil => simp at hlen
      | cons j a2 =>
        refine ⟨(allAssignments n k).map (fun a => j :: a), ⟨j, ?_, rfl⟩, ?_⟩
        · rw [List.mem_range]
          exact hbound j (by simp)
        · rw [List.mem_map]
          refine ⟨a2, (ih k a2).mpr ⟨by simpa using hlen, ?_⟩, rfl⟩
          intro x hx
          exact hbound x (by simp [hx])

theorem mem_candidates_all (g : Graph) (k : Nat) (a : List Nat)
    (h : a ∈ candidates g k) : a ∈ allAssignments g.nodes.length k := by
  unfold candidates at h
  by_cases he : (List.filter (surjAsg k) (allAssignments g.nodes.length k)).isEmpty
  · simp only [he, if_true] at h
    exact h
  · simp only [he, if_false] at h
    exact List.mem_of_mem_filter h

theorem mem_candidates_of_surj (g : Graph) (k : Nat) (a : List Nat)
    (hmem : a ∈ allAssignments g.nodes.length k) (hs : surjAsg k a = true) :
    a ∈ candidates g k := by
  unfold candidates
  have hf : a ∈ List.filter (surjAsg k) (allAssignments g.nodes.length k) :=
    List.mem_filter.mpr ⟨hmem, hs⟩
  have hne : (List.filter (surjAsg k) (allAssignments g.nodes.length k)).isEmpty = false := by
    cases hh : (List.filter (surjAsg k) (allAssignments g.nodes.length k)) with
    | nil => rw [hh] at hf; cases hf
    | cons x xs => simp [hh, List.isEmpty]
  simp only [hne, if_false]
  exact hf

theorem bestAsg_mem (g : Graph) (k : Nat) (asg : List Nat)
    (h : bestAsg g k = some asg) : asg ∈ candidates g k :=
  argminBy_mem _ _ _ h

theorem bestAsg_min (g : Graph) (k : Nat) (asg : List Nat)
    (h : bestAsg g k = some asg) :
    ∀ a ∈ candidates g k,
      costLt (crossCount g a, imbalance k a) (crossCount g asg, imbalance k asg) = false :=
  argminBy_min _ _ _ h

theorem bestAsg_shape (g : Graph) (k : Nat) (asg : List Nat)
    (h : bestAsg g k = some asg) :
    asg.length = g.nodes.length ∧ ∀ x ∈ asg, x < k :=
  (mem_allAssignments _ _ _).mp (mem_candidates_all g k asg (bestAsg_mem g k asg h))

theorem countP_split {α : Type} (l : List α) (q r : α → Bool) :
    l.countP q = (l.countP fun p => q p && r p) + (l.countP fun p => q p && !(r p)) := by
  induction l with
  | nil => rfl
  | cons x l ih =>
    simp only [List.countP_cons]
    cases hq : q x <;> cases hr : r x <;> simp [hq, hr] <;> omega

theorem sum_range_countP {α : Type} : ∀ (k : Nat) (l : List α) (q : α → Bool) (key : α → Nat),
    (∀ p ∈ l, q p = true → key p < k) →
    ((List.range k).map (fun j => l.countP (fun p => q p && decide (key p = j)))).sum
      = l.countP q := by
  intro k
  induction k with
  | zero =>
    intro l q key h
    simp only [List.range_zero, List.map_nil, List.sum_nil]
    symm
    rw [List.countP_eq_zero]
    intro p hp hq
    exact absurd (h p hp hq) (Nat.not_lt_zero _)
  | succ k ih =>
    intro l q key h
    rw [List.range_succ, List.map_append, List.sum_append]
    simp only [List.map_cons, List.map_nil, List.sum_cons, List.sum_nil]
    have hmap : (List.range k).map (fun j => l.countP fun p => q p && decide (key p = j))
        = (List.range k).map
            (fun j => l.countP fun p => (q p && !(decide (key p = k))) && decide (key p = j)) := by
      apply List.map_congr_left
      intro j hj
      rw [List.mem_range] at hj
      apply List.countP_congr
      intro p _
      cases hq : q p
      · simp
      · cases hk : decide (key p = j)
        · simp [hk]
        · have hkj : key p = j := of_decide_eq_true hk
          have hkk : decide (key p = k) = false := decide_eq_false (by omega)
          simp [hk, hkk]
    rw [hmap, ih l (fun p => q p && !(decide (key p = k))) key (by
      intro p hp hq
      rw [Bool.and_eq_true] at hq
      have h2 : key p ≠ k := by
        intro hEq
        rw [hEq] at hq
        simp at hq
      have := h p hp hq.1
      omega)]
    have hs := countP_split l q (fun p => decide (key p = k))
    omega

end Harmonics

namespace Harmonics

theorem count_partition_nodes (g : Graph) (asg : List Nat) (k : Nat)
    (hlen : asg.length = g.nodes.length) (hbound : ∀ x ∈ asg, x < k) (nd : Node) :
    (((List.range k).map (fun j =>
        ((g.nodes.zip asg).filter (fun p => p.2 = j)).map Prod.fst)).flatten).count nd
      = g.nodes.count nd := by
  rw [List.count_flatten, List.map_map]
  have hstep : ((List.count nd) ∘ fun j =>
      ((g.nodes.zip asg).filter (fun p => p.2 = j)).map Prod.fst)
      = fun j => (g.nodes.zip asg).countP
          (fun p => (p.1 == nd) && decide (p.2 = j)) := by
    funext j
    simp only [Function.comp]
    rw [List.count_eq_countP, List.countP_map, List.countP_filter]
    apply List.countP_congr
    intro p _
    constructor
    · intro hx
      exact hx
    · intro hx
      exact hx
  rw [hstep]
  rw [sum_range_countP k (g.nodes.zip asg) (fun p => p.1 == nd) Prod.snd (by
    intro p hp _
    obtain ⟨x, y⟩ := p
    exact hbound y (List.of_mem_zip hp).2)]
  have hfst : List.map Prod.fst (g.nodes.zip asg) = g.nodes :=
    List.map_fst_zip g.nodes asg (by omega)
  conv_rhs => rw [← hfst]
  rw [List.count_eq_countP, List.countP_map]
  rfl

theorem auto_partition_ok (g : Graph) (bs : List harmonics_backend_t)
    (parts : List Partition) (h : auto_partition g bs = Except.ok parts) :
    ∃ asg, bestAsg g bs.length = some asg ∧
      parts = ((List.range bs.length).zip bs).map (fun p => mkPartition g asg p.1 p.2) := by
  unfold auto_partition at h
  cases hb : bestAsg g bs.length with
  | none => rw [hb] at h; cases h
  | some asg =>
    rw [hb] at h
    cases h
    exact ⟨asg, rfl, rfl⟩

end Harmonics

/-- C1: for every graph and backend list, a successful `auto_partition`
returns exactly one partition per backend slot, in input order, and the
partitions' nodes form an exact partition of the graph's nodes: every node
occurs across the partitions exactly as often as in the original graph (no
node in two partitions, none omitted). -/
theorem C1_auto_partition_exact (g : Harmonics.Graph)
    (bs : List Harmonics.harmonics_backend_t) (parts : List Harmonics.Partition)
    (h : Harmonics.auto_partition g bs = Except.ok parts) :
    parts.length = bs.length ∧
    parts.map Harmonics.Partition.backend = bs.map Harmonics.resolveBackend ∧
    ∀ nd : Harmonics.Node,
      ((parts.map Harmonics.Partition.nodes).flatten).count nd = g.nodes.count nd := by
  obtain ⟨asg, hbest, rfl⟩ := Harmonics.auto_partition_ok g bs parts h
  have hshape := Harmonics.bestAsg_shape g bs.length asg hbest
  refine ⟨?_, ?_, ?_⟩
  · simp [List.length_zip]
  · rw [List.map_map]
    have : (Harmonics.Partition.backend ∘ fun p =>
        Harmonics.mkPartition g asg p.1 p.2) = (Harmonics.resolveBackend ∘ Prod.snd) := rfl
    rw [this, ← List.map_map]
    rw [List.map_snd_zip _ _ (by simp)]
  · intro nd
    rw [List.map_map]
    have : (Harmonics.Partition.nodes ∘ fun p => Harmonics.mkPartition g asg p.1 p.2)
        = ((fun j => ((g.nodes.zip asg).filter (fun p => p.2 = j)).map Prod.fst) ∘ Prod.fst) :=
      rfl
    rw [this, ← List.map_map]
    rw [List.map_fst_zip _ _ (by simp)]
    exact Harmonics.count_partition_nodes g asg bs.length hshape.1 hshape.2 nd

namespace Harmonics

/-! ### Boundary-edge counting and monotonicity -/

theorem nodePart_mem (g : Graph) (asg : List Nat) (nm : String) (i : Nat)
    (h : nodePart g asg nm = some i) : i ∈ asg := by
  unfold nodePart at h
  cases hidx : idxOf (g.nodes.map Node.name) nm with
  | none => rw [hidx] at h; cases h
  | some idx =>
    rw [hidx] at h
    exact List.get?_mem h

theorem crossingB_src_isSome (g : Graph) (asg : List Nat) (e : Edge)
    (h : crossingB g asg e = true) : ∃ i, nodePart g asg e.src = some i := by
  unfold crossingB at h
  cases hs : nodePart g asg e.src with
  | none => rw [hs] at h; cases hd : nodePart g asg e.dst <;> rw [hd] at h <;> cases h
  | some i => exact ⟨i, rfl⟩

theorem totalBoundary_eq (g : Graph) (bs : List harmonics_backend_t) (asg : List Nat)
    (hbound : ∀ x ∈ asg, x < bs.length) :
    totalBoundary (((List.range bs.length).zip bs).map (fun p => mkPartition g asg p.1 p.2))
      = crossCount g asg := by
  unfold totalBoundary
  rw [List.map_map]
  have hcomp : ((fun p => p.sends.length) ∘ fun p : Nat × harmonics_backend_t =>
      mkPartition g asg p.1 p.2)
      = ((fun j => (g.edges.filter
          (fun e => crossingB g asg e && nodePart g asg e.src = some j)).length) ∘ Prod.fst) :=
    rfl
  rw [hcomp, ← List.map_map, List.map_fst_zip _ _ (by simp)]
  have hmap : (List.range bs.length).map (fun j => (g.edges.filter
        (fun e => crossingB g asg e && nodePart g asg e.src = some j)).length)
      = (List.range bs.length).map (fun j => g.edges.countP
          (fun e => crossingB g asg e && decide ((nodePart g asg e.src).getD 0 = j))) := by
    apply List.map_congr_left
    intro j _
    rw [← List.countP_eq_length_filter]
    apply List.countP_congr
    intro e _
    cases hc : crossingB g asg e
    · simp
    · obtain ⟨i, hi⟩ := crossingB_src_isSome g asg e hc
      simp [hi]
  rw [hmap]
  rw [sum_range_countP bs.length g.edges (crossingB g asg)
    (fun e => (nodePart g asg e.src).getD 0) (by
      intro e _ hq
      obtain ⟨i, hi⟩ := crossingB_src_isSome g asg e hq
      show (nodePart g asg e.src).getD 0 < bs.length
      rw [hi]
      exact hbound i (nodePart_mem g asg e.src i hi))]
  rfl

theorem nodePart_map (g : Graph) (asg : List Nat) (f : Nat → Nat) (nm : String) :
    nodePart g (asg.map f) nm = (nodePart g asg nm).map f := by
  unfold nodePart
  cases hidx : idxOf (g.nodes.map Node.name) nm with
  | none => rfl
  | some idx =>
    simp [List.get?_map]

theorem crossCount_map_le (g : Graph) (asg : List Nat) (f : Nat → Nat) :
    crossCount g (asg.map f) ≤ crossCount g asg := by
  unfold crossCount
  apply List.countP_mono_left
  intro e _ h
  unfold crossingB at h ⊢
  rw [nodePart_map, nodePart_map] at h
  cases hs : nodePart g asg e.src with
  | none => rw [hs] at h; cases h
  | some i =>
    cases hd : nodePart g asg e.dst with
    | none => rw [hs, hd] at h; cases h
    | some j =>
      rw [hs, hd] at h
      simp only [Option.map_some'] at h
      simp only [decide_eq_true_eq] at h ⊢
      intro hEq
      rw [hEq] at h
      exact h rfl

theorem surjAsg_iff (k : Nat) (asg : List Nat) :
    surjAsg k asg = true ↔ ∀ j < k, j ∈ asg := by
  unfold surjAsg
  rw [List.all_eq_true]
  constructor
  · intro h j hj
    have := h j (List.mem_range.mpr hj)
    simpa using this
  · intro h j hj
    simpa using h j (List.mem_range.mp hj)

theorem surj_merge (N : Nat) (_hN : 1 ≤ N) (asg : List Nat)
    (hs : surjAsg (N + 1) asg = true) :
    surjAsg N (asg.map (fun x => if x = N then N - 1 else x)) = true := by
  rw [surjAsg_iff] at hs ⊢
  intro j hj
  have hjm : j ∈ asg := hs j (by omega)
  rw [List.mem_map]
  refine ⟨j, hjm, ?_⟩
  have : j ≠ N := by omega
  simp [this]

theorem exists_surj (n k : Nat) (h1 : 1 ≤ k) (h2 : k ≤ n) :
    ((List.range n).map (fun i => min i (k - 1))) ∈ allAssignments n k ∧
      surjAsg k ((List.range n).map (fun i => min i (k - 1))) = true := by
  constructor
  · rw [mem_allAssignments]
    constructor
    · simp
    · intro x hx
      rw [List.mem_map] at hx
      obtain ⟨i, _, rfl⟩ := hx
      omega
  · rw [surjAsg_iff]
    intro j hj
    rw [List.mem_map]
    refine ⟨j, List.mem_range.mpr (by omega), by omega⟩

theorem mem_candidates_surj (g : Graph) (k : Nat) (a : List Nat)
    (hex : ∃ b ∈ allAssignments g.nodes.length k, surjAsg k b = true)
    (h : a ∈ candidates g k) : surjAsg k a = true := by
  obtain ⟨b, hb, hbs⟩ := hex
  have hf : b ∈ List.filter (surjAsg k) (allAssignments g.nodes.length k) :=
    List.mem_filter.mpr ⟨hb, hbs⟩
  have hne : (List.filter (surjAsg k) (allAssignments g.nodes.length k)).isEmpty = false := by
    cases hh : List.filter (surjAsg k) (allAssignments g.nodes.length k) with
    | nil => rw [hh] at hf; cases hf
    | cons x xs => simp [hh, List.isEmpty]
  unfold candidates at h
  simp only [hne, if_false] at h
  exact (List.mem_filter.mp h).2

theorem bestAsg_isSome (g : Graph) (k : Nat) (h1 : 1 ≤ k) :
    ∃ asg, bestAsg g k = some asg := by
  have hmem : List.replicate g.nodes.length 0 ∈ allAssignments g.nodes.length k := by
    rw [mem_allAssignments]
    constructor
    · simp
    · intro x hx
      have := List.eq_of_mem_replicate hx
      omega
  have hcand : candidates g k ≠ [] := by
    unfold candidates
    by_cases he : (List.filter (surjAsg k) (allAssignments g.nodes.length k)).isEmpty
    · simp only [he, if_true]
      intro hcon
      rw [hcon] at hmem
      cases hmem
    · simp only [he, if_false]
      intro hcon
      rw [List.isEmpty_iff] at he
      exact he hcon
  cases hb : bestAsg g k with
  | none =>
    unfold bestAsg at hb
    exact absurd ((argminBy_eq_none _ _).mp hb) hcand
  | some asg => exact ⟨asg, rfl⟩

theorem crossLe_of_min (g : Graph) (k : Nat) (asg a : List Nat)
    (hmin : costLt (crossCount g a, imbalance k a)
      (crossCount g asg, imbalance k asg) = false) :
    crossCount g asg ≤ crossCount g a := by
  simp only [costLt, Bool.or_eq_false_iff, Bool.and_eq_false_iff,
    decide_eq_false_iff_not, not_lt] at hmin
  omega

theorem crossCount_bestAsg_mono_adj (g : Graph) (N : Nat) (h1 : 1 ≤ N)
    (h2 : N + 1 ≤ g.nodes.length) (a b : List Nat)
    (ha : bestAsg g N = some a) (hb : bestAsg g (N + 1) = some b) :
    crossCount g a ≤ crossCount g b := by
  have hexb : ∃ x ∈ allAssignments g.nodes.length (N + 1), surjAsg (N + 1) x = true := by
    obtain ⟨hm, hsj⟩ := exists_surj g.nodes.length (N + 1) (by omega) h2
    exact ⟨_, hm, hsj⟩
  have hbsurj : surjAsg (N + 1) b = true :=
    mem_candidates_surj g (N + 1) b hexb (bestAsg_mem g (N + 1) b hb)
  have hbmem := (mem_allAssignments _ _ _).mp
    (mem_candidates_all g (N + 1) b (bestAsg_mem g (N + 1) b hb))
  have hmmem : (b.map (fun x => if x = N then N - 1 else x)) ∈
      allAssignments g.nodes.length N := by
    rw [mem_allAssignments]
    constructor
    · simp [hbmem.1]
    · intro x hx
      rw [List.mem_map] at hx
      obtain ⟨y, hy, rfl⟩ := hx
      have := hbmem.2 y hy
      by_cases hyn : y = N
      · simp [hyn]; omega
      · simp [hyn]; omega
  have hmsurj := surj_merge N h1 b hbsurj
  have hmcand := mem_candidates_of_surj g N _ hmmem hmsurj
  have hmin := bestAsg_min g N a ha _ hmcand
  have hstep1 : crossCount g a ≤ crossCount g (b.map (fun x => if x = N then N - 1 else x)) :=
    crossLe_of_min g N a _ hmin
  have hstep2 : crossCount g (b.map (fun x => if x = N then N - 1 else x)) ≤ crossCount g b :=
    crossCount_map_le g b _
  omega

theorem crossCount_bestAsg_mono (g : Graph) (N M : Nat) (h1 : 1 ≤ N) (hNM : N ≤ M)
    (hM : M ≤ g.nodes.length) (a b : List Nat)
    (ha : bestAsg g N = some a) (hb : bestAsg g M = some b) :
    crossCount g a ≤ crossCount g b := by
  induction M, hNM using Nat.le_induction generalizing b with
  | base =>
    rw [ha] at hb
    cases hb
    exact le_rfl
  | succ m hm ih =>
    obtain ⟨c, hc⟩ := bestAsg_isSome g m (by omega)
    have hstep := crossCount_bestAsg_mono_adj g m (by omega) (by omega) c b hc hb
    have := ih (by omega) c hc
    omega

end Harmonics

/-- C8: for the same graph, the total number of synthetic boundary edges
created by `auto_partition` is monotonically non-decreasing in the number of
partitions requested (backend list length), whenever enough nodes exist for
every partition to be used. -/
theorem C8_boundary_monotone (g : Harmonics.Graph)
    (bsN bsM : List Harmonics.harmonics_backend_t)
    (partsN partsM : List Harmonics.Partition)
    (h1 : 1 ≤ bsN.length) (hNM : bsN.length ≤ bsM.length)
    (hM : bsM.length ≤ g.nodes.length)
    (hpn : Harmonics.auto_partition g bsN = Except.ok partsN)
    (hpm : Harmonics.auto_partition g bsM = Except.ok partsM) :
    Harmonics.totalBoundary partsN ≤ Harmonics.totalBoundary partsM := by
  obtain ⟨a, hba, rfl⟩ := Harmonics.auto_partition_ok g bsN partsN hpn
  obtain ⟨b, hbb, rfl⟩ := Harmonics.auto_partition_ok g bsM partsM hpm
  have hsa := Harmonics.bestAsg_shape g bsN.length a hba
  have hsb := Harmonics.bestAsg_shape g bsM.length b hbb
  rw [Harmonics.totalBoundary_eq g bsN a hsa.2, Harmonics.totalBoundary_eq g bsM b hsb.2]
  exact Harmonics.crossCount_bestAsg_mono g bsN.length bsM.length h1 hNM hM a b hba hbb

/-- C9: `auto_partition` never mutates the input graph: every graph handle
that existed before the ABI call still maps to the same Graph afterwards
(the partitioner derives new Graph instances at fresh handles), consistent
with the ABI taking the graph by const pointer. -/
theorem C9_auto_partition_no_mutation (s : List Harmonics.Graph) (h : Nat)
    (bs : List Harmonics.harmonics_backend_t) :
    (∀ i, i < s.length → ((Harmonics.autoPartitionABI s h bs).1).get? i = s.get? i) ∧
    (∀ hd ∈ (Harmonics.autoPartitionABI s h bs).2, s.length ≤ hd) := by
  unfold Harmonics.autoPartitionABI
  cases hg : s.get? h with
  | none =>
    simp only [hg]
    simp
  | some g =>
    simp only [hg]
    cases hp : Harmonics.auto_partition g bs with
    | error e =>
      simp only [hp]
      simp
    | ok parts =>
      simp only [hp]
      constructor
      · intro i hi
        exact List.get?_append hi
      · intro hd hmem
        simp only [List.mem_map, List.mem_range] at hmem
        obtain ⟨j, _, rfl⟩ := hmem
        omega

namespace Harmonics

/-! ### Schedule-independence of the computed-key structure -/

theorem lookupV_isSome_keys {α β : Type} :
    ∀ (l1 : List (String × α)) (l2 : List (String × β)),
      l1.map Prod.fst = l2.map Prod.fst → ∀ nm,
      (lookupV l1 nm).isSome = (lookupV l2 nm).isSome := by
  intro l1
  induction l1 with
  | nil =>
    intro l2 h nm
    cases l2 with
    | nil => rfl
    | cons x r => cases h
  | cons x r ih =>
    intro l2 h nm
    cases l2 with
    | nil => cases h
    | cons y r2 =>
      simp only [List.map_cons, List.cons.injEq] at h
      obtain ⟨x1, v1⟩ := x
      obtain ⟨y1, w1⟩ := y
      simp only at h
      cases h.1
      show (lookupV ((x1, v1) :: r) nm).isSome = (lookupV ((x1, w1) :: r2) nm).isSome
      by_cases hnm : x1 = nm
      · simp [lookupV, hnm]
      · simp only [lookupV, hnm, if_false]
        exact ih r2 h.2 nm

theorem stepPart_keys {α β : Type}
    (interp1 : String → α → α) (interp2 : String → β → β)
    (g : Graph) (asg : List Nat) (in1 : String → α) (in2 : String → β) (j : Nat) :
    ∀ (acc1 : List (String × α)) (acc2 : List (String × β)),
      acc1.map Prod.fst = acc2.map Prod.fst →
      (stepPart interp1 g asg in1 j acc1).map Prod.fst
        = (stepPart interp2 g asg in2 j acc2).map Prod.fst := by
  unfold stepPart
  generalize ((g.nodes.zip asg).filter (fun p => p.2 = j)) = ps
  induction ps with
  | nil => intro acc1 acc2 h; exact h
  | cons p ps ih =>
    intro acc1 acc2 h
    simp only [List.foldl_cons]
    apply ih
    have hsome := lookupV_isSome_keys acc1 acc2 h p.1.name
    cases h1 : lookupV acc1 p.1.name with
    | some v =>
      have : (lookupV acc2 p.1.name).isSome = true := by
        rw [← hsome, h1]; rfl
      obtain ⟨w, hw⟩ := Option.isSome_iff_exists.mp this
      rw [hw]
      exact h
    | none =>
      have : (lookupV acc2 p.1.name).isSome = false := by
        rw [← hsome, h1]; rfl
      have h2 : lookupV acc2 p.1.name = none := by
        cases hh : lookupV acc2 p.1.name
        · rfl
        · rw [hh] at this; cases this
      rw [h2]
      unfold nodeValue
      cases hk : p.1.kind
      case producer =>
        try dsimp only
        simp only [List.map_append, h]
        rfl
      case consumer =>
        cases he : firstInEdge g p.1.name with
        | none =>
          try dsimp only
          exact h
        | some e =>
          try dsimp only
          cases hv1 : lookupV acc1 e.src with
          | none =>
            have hv2 : lookupV acc2 e.src = none := by
              have hks := lookupV_isSome_keys acc1 acc2 h e.src
              rw [hv1] at hks
              cases hh : lookupV acc2 e.src
              · rfl
              · rw [hh] at hks; cases hks
            rw [hv2]
            try dsimp only
            exact h
          | some w =>
            have hks := lookupV_isSome_keys acc1 acc2 h e.src
            rw [hv1] at hks
            obtain ⟨w2, hw2⟩ := Option.isSome_iff_exists.mp (by rw [← hks]; rfl)
            rw [hw2]
            simp only [Option.map_some', List.map_append, h]
            rfl
      case layer =>
        cases he : firstInEdge g p.1.name with
        | none =>
          try dsimp only
          exact h
        | some e =>
          try dsimp only
          cases hv1 : lookupV acc1 e.src with
          | none =>
            have hv2 : lookupV acc2 e.src = none := by
              have hks := lookupV_isSome_keys acc1 acc2 h e.src
              rw [hv1] at hks
              cases hh : lookupV acc2 e.src
              · rfl
              · rw [hh] at hks; cases hks
            rw [hv2]
            try dsimp only
            exact h
          | some w =>
            have hks := lookupV_isSome_keys acc1 acc2 h e.src
            rw [hv1] at hks
            obtain ⟨w2, hw2⟩ := Option.isSome_iff_exists.mp (by rw [← hks]; rfl)
            rw [hw2]
            simp only [Option.map_some', List.map_append, h]
            rfl

end Harmonics

namespace Harmonics

theorem runSched_keys {α β : Type} (interp1 : String → α → α) (interp2 : String → β → β)
    (g : Graph) (asg : List Nat) (in1 : String → α) (in2 : String → β) :
    ∀ (sched : List Nat) (acc1 : List (String × α)) (acc2 : List (String × β)),
      acc1.map Prod.fst = acc2.map Prod.fst →
      (runSched interp1 g asg in1 sched acc1).map Prod.fst
        = (runSched interp2 g asg in2 sched acc2).map Prod.fst := by
  intro sched
  induction sched with
  | nil => intro acc1 acc2 h; exact h
  | cons j sched ih =>
    intro acc1 acc2 h
    exact ih _ _ (stepPart_keys interp1 interp2 g asg in1 in2 j acc1 acc2 h)

theorem allComputed_keys {α β : Type} (g : Graph)
    (c1 : List (String × α)) (c2 : List (String × β))
    (h : c1.map Prod.fst = c2.map Prod.fst) :
    allComputed g c1 = allComputed g c2 := by
  unfold allComputed
  induction g.nodes with
  | nil => rfl
  | cons nd nds ih =>
    simp only [List.all_cons]
    rw [lookupV_isSome_keys c1 c2 h nd.name, ih]

theorem completion_transfer {α : Type} (interp : String → α → α) (inputs : String → α)
    (g : Graph) (asg : List Nat) (sched : List Nat)
    (h : allComputed g (distEpoch (fun _ v => v) g asg (fun _ => (0 : Nat)) sched) = true) :
    allComputed g (distEpoch interp g asg inputs sched) = true := by
  rw [allComputed_keys g (distEpoch interp g asg inputs sched)
    (distEpoch (fun _ v => v) g asg (fun _ => (0 : Nat)) sched)
    (runSched_keys interp (fun _ v => v) g asg inputs (fun _ => (0 : Nat)) sched [] [] rfl)]
  exact h

end Harmonics

namespace Harmonics

/-! ### Computed values realize the denotational relation -/

theorem lookupV_append_l {α : Type} :
    ∀ (l : List (String × α)) (x : String × α) (nm : String),
      lookupV (l ++ [x]) nm =
        (match lookupV l nm with
          | some v => some v
          | none => if x.1 = nm then some x.2 else none) := by
  intro l x nm
  induction l with
  | nil => rfl
  | cons y r ih =>
    obtain ⟨y1, v1⟩ := y
    show lookupV ((y1, v1) :: (r ++ [x])) nm = _
    by_cases h : y1 = nm
    · simp [lookupV, h]
    · simp only [lookupV, h, if_false]
      exact ih

theorem uniq_lookupNode (g : Graph)
    (huniq : namesUnique (g.nodes.map Node.name) = true) :
    ∀ nd ∈ g.nodes, lookupNode g nd.name = some nd := by
  unfold lookupNode
  have haux : ∀ (nds : List Node), namesUnique (nds.map Node.name) = true →
      ∀ nd ∈ nds, (nds.filter (fun x => x.name = nd.name)).head? = some nd := by
    intro nds
    induction nds with
    | nil => intro _ nd h; cases h
    | cons x rest ih =>
      intro hu nd hmem
      simp only [List.map_cons, namesUnique, Bool.and_eq_true] at hu
      rcases List.mem_cons.mp hmem with rfl | hmem2
      · simp [List.filter_cons]
      · have hx : x.name ≠ nd.name := by
          intro hEq
          have hmm : x.name ∈ rest.map Node.name := by
            rw [hEq]
            exact List.mem_map_of_mem _ hmem2
          have hct : (rest.map Node.name).contains x.name = true := by simpa using hmm
          have hu1 := hu.1
          rw [hct] at hu1
          simp at hu1
        have hfalse : (decide (x.name = nd.name)) = false := decide_eq_false hx
        simp only [List.filter_cons, hfalse, Bool.false_eq_true, if_false]
        exact ih hu.2 nd hmem2
  exact haux g.nodes huniq

end Harmonics

namespace Harmonics

theorem stepPart_inv {α : Type} (interp : String → α → α) (g : Graph) (asg : List Nat)
    (inputs : String → α) (j : Nat)
    (huniq : namesUnique (g.nodes.map Node.name) = true) :
    ∀ (acc : List (String × α)),
      (∀ nm v, lookupV acc nm = some v → EvalR interp g inputs nm v) →
      ∀ nm v, lookupV (stepPart interp g asg inputs j acc) nm = some v →
        EvalR interp g inputs nm v := by
  unfold stepPart
  have hsub : ∀ p ∈ (g.nodes.zip asg).filter (fun p => p.2 = j), p.1 ∈ g.nodes := by
    intro p hp
    obtain ⟨x, y⟩ := p
    exact (List.of_mem_zip (List.mem_of_mem_filter hp)).1
  generalize ((g.nodes.zip asg).filter (fun p => p.2 = j)) = ps at hsub
  revert hsub
  induction ps with
  | nil =>
    intro _ acc hInv
    exact hInv
  | cons p ps ih =>
    intro hsub acc hInv
    simp only [List.foldl_cons]
    apply ih (fun q hq => hsub q (by simp [hq]))
    have hp1 : p.1 ∈ g.nodes := hsub p (by simp)
    cases h1 : lookupV acc p.1.name with
    | some w =>
      intro nm v h
      exact hInv nm v h
    | none =>
      cases h2 : nodeValue interp g inputs acc p.1 with
      | none =>
        intro nm v h
        exact hInv nm v h
      | some w =>
        intro nm v h
        rw [lookupV_append_l] at h
        cases h3 : lookupV acc nm with
        | some u =>
          rw [h3] at h
          injection h with h5
          exact h5 ▸ hInv nm u h3
        | none =>
          rw [h3] at h
          by_cases h4 : p.1.name = nm
          · rw [if_pos h4] at h
            cases h
            subst h4
            unfold nodeValue at h2
            cases hk : p.1.kind with
            | producer =>
              rw [hk] at h2
              cases h2
              exact EvalR.prod _ p.1 (uniq_lookupNode g huniq p.1 hp1) hk
            | consumer =>
              rw [hk] at h2
              cases he : firstInEdge g p.1.name with
              | none => rw [he] at h2; cases h2
              | some e =>
                rw [he] at h2
                simp only [Option.map_eq_some'] at h2
                obtain ⟨u, hu, rfl⟩ := h2
                exact EvalR.edge _ p.1 e u (uniq_lookupNode g huniq p.1 hp1)
                  (by rw [hk]; intro hh; cases hh) he (hInv e.src u hu)
            | layer =>
              rw [hk] at h2
              cases he : firstInEdge g p.1.name with
              | none => rw [he] at h2; cases h2
              | some e =>
                rw [he] at h2
                simp only [Option.map_eq_some'] at h2
                obtain ⟨u, hu, rfl⟩ := h2
                exact EvalR.edge _ p.1 e u (uniq_lookupNode g huniq p.1 hp1)
                  (by rw [hk]; intro hh; cases hh) he (hInv e.src u hu)
          · rw [if_neg h4] at h
            cases h

theorem runSched_inv {α : Type} (interp : String → α → α) (g : Graph) (asg : List Nat)
    (inputs : String → α)
    (huniq : namesUnique (g.nodes.map Node.name) = true) :
    ∀ (sched : List Nat) (acc : List (String × α)),
      (∀ nm v, lookupV acc nm = some v → EvalR interp g inputs nm v) →
      ∀ nm v, lookupV (runSched interp g asg inputs sched acc) nm = some v →
        EvalR interp g inputs nm v := by
  intro sched
  induction sched with
  | nil => intro acc hInv; exact hInv
  | cons x sched ih =>
    intro acc hInv
    exact ih _ (stepPart_inv interp g asg inputs x huniq acc hInv)

theorem distEpoch_inv {α : Type} (interp : String → α → α) (g : Graph) (asg : List Nat)
    (inputs : String → α) (sched : List Nat)
    (huniq : namesUnique (g.nodes.map Node.name) = true) :
    ∀ nm v, lookupV (distEpoch interp g asg inputs sched) nm = some v →
      EvalR interp g inputs nm v := by
  apply runSched_inv interp g asg inputs huniq sched []
  intro nm v h
  cases h

theorem evalR_det {α : Type} (interp : String → α → α) (g : Graph) (inputs : String → α) :
    ∀ (nm : String) (v w : α), EvalR interp g inputs nm v →
      EvalR interp g inputs nm w → v = w := by
  intro nm v w h1
  induction h1 generalizing w with
  | prod nm1 nd1 hl hk =>
    intro h2
    cases h2 with
    | prod nm2 nd2 hl2 hk2 => rfl
    | edge nm2 nd2 e2 w2 hl2 hk2 he2 hw2 =>
      rw [hl] at hl2
      cases hl2
      exact absurd hk hk2
  | edge nm1 nd1 e1 u1 hl hk he hw ih =>
    intro h2
    cases h2 with
    | prod nm2 nd2 hl2 hk2 =>
      rw [hl] at hl2
      cases hl2
      exact absurd hk2 hk
    | edge nm2 nd2 e2 u2 hl2 hk2 he2 hw2 =>
      rw [he] at he2
      cases he2
      rw [ih u2 hw2]

end Harmonics

namespace Harmonics

theorem evalR_p {α : Type} (interp : String → α → α) (inputs : String → α) :
    ∀ v, EvalR interp chainGraph inputs "p" v → v = inputs "p" := by
  intro v h
  cases h with
  | prod nm nd hl hk => rfl
  | edge nm nd e w hl hk he hw =>
    rw [show lookupNode chainGraph "p" = some ⟨.producer, "p", some 1⟩ from rfl] at hl
    injection hl with h1
    subst h1
    exact absurd rfl hk

theorem evalR_l1 {α : Type} (interp : String → α → α) (inputs : String → α) :
    ∀ v, EvalR interp chainGraph inputs "l1" v → v = inputs "p" := by
  intro v h
  cases h with
  | prod nm nd hl hk =>
    rw [show lookupNode chainGraph "l1" = some ⟨.layer, "l1", none⟩ from rfl] at hl
    injection hl with h1
    subst h1
    cases hk
  | edge nm nd e w hl hk he hw =>
    rw [show firstInEdge chainGraph "l1" = some ⟨"p", "l1", some "id"⟩ from rfl] at he
    injection he with h1
    subst h1
    rw [← evalR_p interp inputs w hw]
    rfl

theorem evalR_l2 {α : Type} (interp : String → α → α) (inputs : String → α) :
    ∀ v, EvalR interp chainGraph inputs "l2" v → v = inputs "p" := by
  intro v h
  cases h with
  | prod nm nd hl hk =>
    rw [show lookupNode chainGraph "l2" = some ⟨.layer, "l2", none⟩ from rfl] at hl
    injection hl with h1
    subst h1
    cases hk
  | edge nm nd e w hl hk he hw =>
    rw [show firstInEdge chainGraph "l2" = some ⟨"l1", "l2", some "id"⟩ from rfl] at he
    injection he with h1
    subst h1
    rw [← evalR_l1 interp inputs w hw]
    rfl

theorem evalR_chain {α : Type} (interp : String → α → α) (inputs : String → α) :
    ∀ v, EvalR interp chainGraph inputs "c" v → v = inputs "p" := by
  intro v h
  cases h with
  | prod nm nd hl hk =>
    rw [show lookupNode chainGraph "c" = some ⟨.consumer, "c", some 1⟩ from rfl] at hl
    injection hl with h1
    subst h1
    cases hk
  | edge nm nd e w hl hk he hw =>
    rw [show firstInEdge chainGraph "c" = some ⟨"l2", "c", none⟩ from rfl] at he
    injection he with h1
    subst h1
    rw [← evalR_l2 interp inputs w hw]
    rfl

end Harmonics

/-- C2: the graph text of the scheduler example parses to the identity-chain
graph, and for every cut of its four nodes over two backends, every transfer
interpretation, every producer value sequence and every epoch, the
distributed execution delivers to consumer `c` exactly the value producer
`p` emits that epoch — the distributed identity chain is equivalent to the
unpartitioned execution. -/
theorem C2_identity_chain_delivery {α : Type} (interp : String → α → α)
    (asg : List Nat) (hasg : asg ∈ Harmonics.allAssignments 4 2)
    (src : Nat → α) (k : Nat) :
    Harmonics.parse
        "producer p\x7b1\x7d; consumer c\x7b1\x7d; layer l1; layer l2; cycle\x7b p -(id)-> l1 -(id)-> l2 -> c; \x7d"
      = Except.ok Harmonics.chainGraph ∧
    Harmonics.lookupV
        (Harmonics.distEpoch interp Harmonics.chainGraph asg (fun _ => src k)
          [0, 1, 0, 1, 0, 1, 0, 1]) "c"
      = some (src k) := by
  constructor
  · rfl
  · have huniq : Harmonics.namesUnique
        (Harmonics.chainGraph.nodes.map Harmonics.Node.name) = true := by decide
    have hall : ∀ a ∈ Harmonics.allAssignments 4 2,
        Harmonics.allComputed Harmonics.chainGraph
          (Harmonics.distEpoch (fun _ v => v) Harmonics.chainGraph a
            (fun _ => (0 : Nat)) [0, 1, 0, 1, 0, 1, 0, 1]) = true := by decide
    have hcomp := Harmonics.completion_transfer interp (fun _ => src k)
      Harmonics.chainGraph asg [0, 1, 0, 1, 0, 1, 0, 1] (hall asg hasg)
    unfold Harmonics.allComputed at hcomp
    rw [List.all_eq_true] at hcomp
    have hc := hcomp ⟨.consumer, "c", some 1⟩ (by simp [Harmonics.chainGraph])
    simp only at hc
    obtain ⟨v, hv⟩ := Option.isSome_iff_exists.mp hc
    rw [hv]
    have hEv := Harmonics.distEpoch_inv interp Harmonics.chainGraph asg
      (fun _ => src k) [0, 1, 0, 1, 0, 1, 0, 1] huniq "c" v hv
    rw [Harmonics.evalR_chain interp (fun _ => src k) v hEv]

/-- C7: on a deterministic graph (unique node names, producers driven by a
fixed per-epoch source), two runs of `scheduler_fit` with the same epoch
count produce identical consumer-observed outputs, whatever partition
interleavings the two runs happen to use, provided both runs complete every
epoch. -/
theorem C7_repeated_run_determinism {α : Type} (interp : String → α → α)
    (g : Harmonics.Graph) (asg : List Nat)
    (huniq : Harmonics.namesUnique (g.nodes.map Harmonics.Node.name) = true)
    (src : Nat → String → α) (s1 s2 : Nat → List Nat) (E : Nat)
    (hc1 : ∀ k, k < E →
      Harmonics.allComputed g (Harmonics.distEpoch interp g asg (src k) (s1 k)) = true)
    (hc2 : ∀ k, k < E →
      Harmonics.allComputed g (Harmonics.distEpoch interp g asg (src k) (s2 k)) = true) :
    Harmonics.schedulerFitOutputs interp g asg src s1 E
      = Harmonics.schedulerFitOutputs interp g asg src s2 E := by
  unfold Harmonics.schedulerFitOutputs
  apply List.map_congr_left
  intro k hk
  rw [List.mem_range] at hk
  unfold Harmonics.consumerOut
  apply List.map_congr_left
  intro nd hnd
  have hmem : nd ∈ g.nodes := List.mem_of_mem_filter hnd
  have h1 := hc1 k hk
  have h2 := hc2 k hk
  unfold Harmonics.allComputed at h1 h2
  rw [List.all_eq_true] at h1 h2
  have hs1 := h1 nd hmem
  have hs2 := h2 nd hmem
  simp only at hs1 hs2
  obtain ⟨v1, hv1⟩ := Option.isSome_iff_exists.mp hs1
  obtain ⟨v2, hv2⟩ := Option.isSome_iff_exists.mp hs2
  rw [hv1, hv2]
  have e1 := Harmonics.distEpoch_inv interp g asg (src k) (s1 k) huniq nd.name v1 hv1
  have e2 := Harmonics.distEpoch_inv interp g asg (src k) (s2 k) huniq nd.name v2 hv2
  rw [Harmonics.evalR_det interp g (src k) nd.name v1 v2 e1 e2]

namespace Harmonics

/-! ### Barrier ordering lemmas -/

theorem barSteps_append (cfg : BarCfg) :
    ∀ (tr1 tr2 : List Ev) (s s2 : BarSt), barSteps cfg s (tr1 ++ tr2) s2 →
      ∃ s1, barSteps cfg s tr1 s1 ∧ barSteps cfg s1 tr2 s2 := by
  intro tr1
  induction tr1 with
  | nil =>
    intro tr2 s s2 h
    exact ⟨s, barSteps.nil s, h⟩
  | cons ev tr ih =>
    intro tr2 s s2 h
    cases h with
    | cons _ smid _ _ _ h1 h2 =>
      obtain ⟨s1, ha, hb⟩ := ih tr2 smid s2 h2
      exact ⟨s1, barSteps.cons _ _ _ _ _ h1 ha, hb⟩

theorem barSteps_history (cfg : BarCfg) :
    ∀ (tr : List Ev) (s s2 : BarSt), barSteps cfg s tr s2 →
      (∀ q m, s.done q ≤ m → m < s2.done q → Ev.endE q m ∈ tr) ∧
      (∀ e m, s.deliv e ≤ m → m < s2.deliv e → Ev.deliver e m ∈ tr) := by
  intro tr
  induction tr with
  | nil =>
    intro s s2 h
    cases h
    exact ⟨fun q m h1 h2 => absurd h2 (by omega),
      fun e m h1 h2 => absurd h2 (by omega)⟩
  | cons ev tr ih =>
    intro s s2 h
    cases h with
    | cons _ s1 _ _ _ h1 h2 =>
      have hrec := ih s1 s2 h2
      constructor
      · intro q m hm1 hm2
        cases h1 with
        | beginS p k hp hidle hdone hbar hdel =>
          exact List.mem_cons_of_mem _ (hrec.1 q m hm1 hm2)
        | endS p k hp hrun hdone =>
          by_cases hqp : q = p
          · subst hqp
            by_cases hmq : m = s.done q
            · subst hmq
              rw [hdone]
              exact List.mem_cons_self _ _
            · refine List.mem_cons_of_mem _ (hrec.1 q m ?_ hm2)
              show (bump s.done q) q ≤ m
              have hb : (bump s.done q) q = s.done q + 1 := by
                unfold bump
                simp
              rw [hb]
              omega
          · refine List.mem_cons_of_mem _ (hrec.1 q m ?_ hm2)
            show (bump s.done p) q ≤ m
            unfold bump
            simp only [hqp, if_false]
            exact hm1
        | deliverS e k he hcur hsent =>
          exact List.mem_cons_of_mem _ (hrec.1 q m hm1 hm2)
      · intro e m hm1 hm2
        cases h1 with
        | beginS p k hp hidle hdone hbar hdel =>
          exact List.mem_cons_of_mem _ (hrec.2 e m hm1 hm2)
        | endS p k hp hrun hdone =>
          exact List.mem_cons_of_mem _ (hrec.2 e m hm1 hm2)
        | deliverS e1 k he1 hcur hsent =>
          by_cases heq : e = e1
          · subst heq
            by_cases hmq : m = s.deliv e
            · subst hmq
              rw [hcur]
              exact List.mem_cons_self _ _
            · refine List.mem_cons_of_mem _ (hrec.2 e m ?_ hm2)
              show (bump s.deliv e) e ≤ m
              have hb : (bump s.deliv e) e = s.deliv e + 1 := by
                unfold bump
                simp
              rw [hb]
              omega
          · refine List.mem_cons_of_mem _ (hrec.2 e m ?_ hm2)
            show (bump s.deliv e1) e ≤ m
            unfold bump
            simp only [heq, if_false]
            exact hm1

end Harmonics

/-- C3: the distributed scheduler's per-epoch global barrier: in every run of
the epoch step relation, before any partition begins epoch k+1, every
partition has completed epoch k and every boundary send of epoch k has been
delivered — all of those events occur strictly earlier in the trace. -/
theorem C3_epoch_barrier (cfg : Harmonics.BarCfg) (tr1 tr2 : List Harmonics.Ev)
    (p k : Nat) (sFin : Harmonics.BarSt)
    (h : Harmonics.barSteps cfg Harmonics.barInit
      (tr1 ++ Harmonics.Ev.beginE p (k + 1) :: tr2) sFin) :
    (∀ q, q < cfg.P → Harmonics.Ev.endE q k ∈ tr1) ∧
    (∀ e, e < cfg.B → Harmonics.Ev.deliver e k ∈ tr1) := by
  obtain ⟨s1, hs1, hs2⟩ := Harmonics.barSteps_append cfg tr1 _ Harmonics.barInit sFin h
  cases hs2 with
  | cons _ smid _ _ _ hstep hrest =>
    cases hstep with
    | beginS p0 k0 hp hidle hdone hbar hdel =>
      have hist := Harmonics.barSteps_history cfg tr1 Harmonics.barInit s1 hs1
      constructor
      · intro q hq
        exact hist.1 q k (by show 0 ≤ k; omega)
          (lt_of_lt_of_le (Nat.lt_succ_self k) (hbar q hq))
      · intro e he
        exact hist.2 e k (by show 0 ≤ k; omega)
          (lt_of_lt_of_le (Nat.lt_succ_self k) (hdel e he))

namespace Harmonics

/-! ### Unbound producers and fail-fast fit -/

theorem runEpoch_unbound (rt : Runtime)
    (h : ∃ nd ∈ producersOf rt.part, lookupV rt.binds nd.name = none) :
    ∃ nm, runEpoch rt = Except.error (RtErr.unboundProducer nm) ∧
      ∃ nd ∈ producersOf rt.part, nd.name = nm ∧ lookupV rt.binds nd.name = none := by
  have hsome : ((producersOf rt.part).find?
      (fun nd => (lookupV rt.binds nd.name).isNone)).isSome = true := by
    rw [List.find?_isSome]
    obtain ⟨nd, hmem, hnone⟩ := h
    exact ⟨nd, hmem, by rw [hnone]; rfl⟩
  obtain ⟨nd, hnd⟩ := Option.isSome_iff_exists.mp hsome
  refine ⟨nd.name, ?_, nd, List.mem_of_find?_eq_some hnd, rfl, ?_⟩
  · unfold runEpoch
    rw [hnd]
  · have := List.find?_some hnd
    simp only [Option.isNone_iff_eq_none] at this
    exact this

theorem firstErr_unbound : ∀ (rts : List Runtime) (i0 : Nat),
    (rts.any (fun rt =>
      (producersOf rt.part).any (fun nd => (lookupV rt.binds nd.name).isNone)) = true) →
    ∃ j nm, firstErr rts i0 = some (j, RtErr.unboundProducer nm) ∧
      i0 ≤ j ∧ j - i0 < rts.length ∧
      ∃ rt, rts.get? (j - i0) = some rt ∧
        ∃ nd ∈ producersOf rt.part, nd.name = nm ∧ lookupV rt.binds nd.name = none := by
  intro rts
  induction rts with
  | nil =>
    intro i0 h
    cases h
  | cons rt rts ih =>
    intro i0 h
    cases hre : runEpoch rt with
    | error e =>
      have hub : ∃ nd ∈ producersOf rt.part, lookupV rt.binds nd.name = none := by
        unfold runEpoch at hre
        cases hf : (producersOf rt.part).find?
            (fun nd => (lookupV rt.binds nd.name).isNone) with
        | none => rw [hf] at hre; cases hre
        | some nd =>
          refine ⟨nd, List.mem_of_find?_eq_some hf, ?_⟩
          have := List.find?_some hf
          simp only [Option.isNone_iff_eq_none] at this
          exact this
      obtain ⟨nm, hnm, hwit⟩ := runEpoch_unbound rt hub
      refine ⟨i0, nm, ?_, le_rfl, by simp, rt, by simp, hwit⟩
      show firstErr (rt :: rts) i0 = _
      unfold firstErr
      rw [hre]
      rw [hnm] at hre
      injection hre with h1
      rw [h1]
    | ok u =>
      have hany : rts.any (fun rt =>
          (producersOf rt.part).any (fun nd => (lookupV rt.binds nd.name).isNone)) = true := by
        rw [List.any_eq_true] at h ⊢
        obtain ⟨x, hx, hpx⟩ := h
        rcases List.mem_cons.mp hx with rfl | hx2
        · exfalso
          rw [List.any_eq_true] at hpx
          obtain ⟨nd, hnd, hnone⟩ := hpx
          simp only [Option.isNone_iff_eq_none] at hnone
          obtain ⟨nm, hnm, _⟩ := runEpoch_unbound x ⟨nd, hnd, hnone⟩
          rw [hnm] at hre
          cases hre
        · exact ⟨x, hx2, hpx⟩
      obtain ⟨j, nm, h1, h2, h3, rt2, h4, h5⟩ := ih (i0 + 1) hany
      refine ⟨j, nm, ?_, by omega, by simp; omega, rt2, ?_, h5⟩
      · show firstErr (rt :: rts) i0 = _
        unfold firstErr
        rw [hre]
        exact h1
      · have : j - i0 = (j - (i0 + 1)) + 1 := by omega
        rw [this]
        simpa using h4

end Harmonics

/-- C4: an unbound producer makes `run_epoch` fail with an unbound-producer
error, and `scheduler_fit` fails fast on the first such error, reporting the
partition index and the epoch (the first, epoch 0) that triggered it, with no
epoch completing — as in the scheduler example, which never binds its
producer. -/
theorem C4_unbound_producer_fail_fast :
    (∀ rt : Harmonics.Runtime,
      (∃ nd ∈ Harmonics.producersOf rt.part, Harmonics.lookupV rt.binds nd.name = none) →
      ∃ nm, Harmonics.runEpoch rt = Except.error (Harmonics.RtErr.unboundProducer nm)) ∧
    (∀ (s : Harmonics.Sched) (E : Nat), 1 ≤ E → Harmonics.hasUnbound s = true →
      ∃ i nm, Harmonics.scheduler_fit s E =
          Except.error ⟨i, 0, Harmonics.RtErr.unboundProducer nm⟩ ∧
        i < s.runtimes.length ∧
        ∃ rt, s.runtimes.get? i = some rt ∧
          ∃ nd ∈ Harmonics.producersOf rt.part,
            nd.name = nm ∧ Harmonics.lookupV rt.binds nd.name = none) := by
  constructor
  · intro rt h
    obtain ⟨nm, hnm, _⟩ := Harmonics.runEpoch_unbound rt h
    exact ⟨nm, hnm⟩
  · intro s E hE hub
    unfold Harmonics.hasUnbound at hub
    obtain ⟨j, nm, h1, _, h3, rt, h4, h5⟩ := Harmonics.firstErr_unbound s.runtimes 0 hub
    refine ⟨j, nm, ?_, by omega, rt, by simpa using h4, h5⟩
    unfold Harmonics.scheduler_fit
    cases E with
    | zero => omega
    | succ e =>
      unfold Harmonics.fitGo
      rw [h1]

/-- C5: `bind_producer` validates at bind time: an out-of-range partition
index or a name that does not resolve to a producer node in the addressed
partition yields a BindingError and returns the scheduler unchanged. -/
theorem C5_bind_validation (s : Harmonics.Sched) (i : Nat) (nm : String) (src : Nat) :
    (s.runtimes.length ≤ i →
      Harmonics.scheduler_bind_producer s i nm src = (s, some Harmonics.BindErr.badIndex)) ∧
    (∀ rt, s.runtimes.get? i = some rt →
      (Harmonics.producersOf rt.part).any (fun nd => nd.name = nm) = false →
      Harmonics.scheduler_bind_producer s i nm src
        = (s, some Harmonics.BindErr.unknownName)) := by
  constructor
  · intro hlen
    unfold Harmonics.scheduler_bind_producer
    rw [List.get?_eq_none.mpr hlen]
  · intro rt hrt hnone
    unfold Harmonics.scheduler_bind_producer
    rw [hrt]
    simp only [hnone, Bool.false_eq_true, if_false]

/-- C1 witness: partitioning the example chain over two CPU backends yields
exactly the two expected partitions, covering the producer node once. -/
theorem C1_auto_partition_exact_witness :
    Harmonics.auto_partition Harmonics.chainGraph
        [.HARMONICS_BACKEND_CPU, .HARMONICS_BACKEND_CPU]
      = Except.ok [Harmonics.examplePartition0, Harmonics.examplePartition1] ∧
    [Harmonics.examplePartition0, Harmonics.examplePartition1].length = 2 ∧
    (([Harmonics.examplePartition0, Harmonics.examplePartition1].map
        Harmonics.Partition.nodes).flatten).count ⟨.producer, "p", some 1⟩
      = Harmonics.chainGraph.nodes.count ⟨.producer, "p", some 1⟩ := by
  have h := C1_auto_partition_exact Harmonics.chainGraph
    [.HARMONICS_BACKEND_CPU, .HARMONICS_BACKEND_CPU]
    [Harmonics.examplePartition0, Harmonics.examplePartition1] (by rfl)
  exact ⟨by rfl, h.1, h.2.2 _⟩

/-- C2 witness: the round-robin run of the identity chain cut as
`[0,1,0,1]` delivers the producer's value 5 to `c`. -/
theorem C2_identity_chain_delivery_witness :
    Harmonics.parse
        "producer p\x7b1\x7d; consumer c\x7b1\x7d; layer l1; layer l2; cycle\x7b p -(id)-> l1 -(id)-> l2 -> c; \x7d"
      = Except.ok Harmonics.chainGraph ∧
    Harmonics.lookupV
        (Harmonics.distEpoch (fun _ v => v) Harmonics.chainGraph [0, 1, 0, 1]
          (fun _ => (5 : Nat)) [0, 1, 0, 1, 0, 1, 0, 1]) "c" = some 5 :=
  C2_identity_chain_delivery (fun _ v => v) [0, 1, 0, 1] (by decide)
    (fun _ => (5 : Nat)) 0

/-- C3 witness: in a concrete 2-partition, 1-boundary-edge run, the events
completing epoch 0 and delivering its send all precede the begin of
epoch 1. -/
theorem C3_epoch_barrier_witness :
    (∀ q, q < ({ P := 2, B := 1, sender := fun _ => 0 } : Harmonics.BarCfg).P →
      Harmonics.Ev.endE q 0 ∈
        [Harmonics.Ev.beginE 0 0, Harmonics.Ev.beginE 1 0, Harmonics.Ev.deliver 0 0,
         Harmonics.Ev.endE 0 0, Harmonics.Ev.endE 1 0]) ∧
    (∀ e, e < ({ P := 2, B := 1, sender := fun _ => 0 } : Harmonics.BarCfg).B →
      Harmonics.Ev.deliver e 0 ∈
        [Harmonics.Ev.beginE 0 0, Harmonics.Ev.beginE 1 0, Harmonics.Ev.deliver 0 0,
         Harmonics.Ev.endE 0 0, Harmonics.Ev.endE 1 0]) := by
  refine C3_epoch_barrier { P := 2, B := 1, sender := fun _ => 0 }
    [Harmonics.Ev.beginE 0 0, Harmonics.Ev.beginE 1 0, Harmonics.Ev.deliver 0 0,
     Harmonics.Ev.endE 0 0, Harmonics.Ev.endE 1 0] [] 0 0 ?s ?h
  case h =>
    refine Harmonics.barSteps.cons _ _ _ _ _
      (Harmonics.barStep.beginS _ 0 0 (by decide) rfl rfl
        (fun q _ => Nat.zero_le _) (fun e _ => Nat.zero_le _)) ?_
    refine Harmonics.barSteps.cons _ _ _ _ _
      (Harmonics.barStep.beginS _ 1 0 (by decide) rfl rfl
        (fun q _ => Nat.zero_le _) (fun e _ => Nat.zero_le _)) ?_
    refine Harmonics.barSteps.cons _ _ _ _ _
      (Harmonics.barStep.deliverS _ 0 0 (by decide) rfl (by decide)) ?_
    refine Harmonics.barSteps.cons _ _ _ _ _
      (Harmonics.barStep.endS _ 0 0 (by decide) rfl rfl) ?_
    refine Harmonics.barSteps.cons _ _ _ _ _
      (Harmonics.barStep.endS _ 1 0 (by decide) rfl rfl) ?_
    refine Harmonics.barSteps.cons _ _ _ _ _
      (Harmonics.barStep.beginS _ 0 1 (by decide) (by decide) (by decide)
        (by decide) (by decide)) ?_
    exact Harmonics.barSteps.nil _

/-- C4 witness: the example scheduler (no producer ever bound) fails its
first epoch with an unbound-producer error instead of completing it. -/
theorem C4_unbound_producer_fail_fast_witness :
    (∃ nm, Harmonics.runEpoch ⟨Harmonics.examplePartition0, []⟩
        = Except.error (Harmonics.RtErr.unboundProducer nm)) ∧
    (∃ i nm, Harmonics.scheduler_fit Harmonics.exampleSched 1 =
        Except.error ⟨i, 0, Harmonics.RtErr.unboundProducer nm⟩ ∧
      i < Harmonics.exampleSched.runtimes.length ∧
      ∃ rt, Harmonics.exampleSched.runtimes.get? i = some rt ∧
        ∃ nd ∈ Harmonics.producersOf rt.part,
          nd.name = nm ∧ Harmonics.lookupV rt.binds nd.name = none) :=
  ⟨C4_unbound_producer_fail_fast.1 ⟨Harmonics.examplePartition0, []⟩
      ⟨⟨.producer, "p", some 1⟩, by decide, rfl⟩,
   C4_unbound_producer_fail_fast.2 Harmonics.exampleSched 1 (by omega) (by decide)⟩

/-- C5 witness: binding with an out-of-range index or an unknown producer
name fails at bind time and leaves the example scheduler unchanged. -/
theorem C5_bind_validation_witness :
    Harmonics.scheduler_bind_producer Harmonics.exampleSched 5 "p" 7
      = (Harmonics.exampleSched, some Harmonics.BindErr.badIndex) ∧
    Harmonics.scheduler_bind_producer Harmonics.exampleSched 0 "zzz" 7
      = (Harmonics.exampleSched, some Harmonics.BindErr.unknownName) :=
  ⟨(C5_bind_validation Harmonics.exampleSched 5 "p" 7).1 (by decide),
   (C5_bind_validation Harmonics.exampleSched 0 "zzz" 7).2
     ⟨Harmonics.examplePartition0, []⟩ (by rfl) (by decide)⟩

/-- C7 witness: two different interleavings of the chain's two partitions
produce the same consumer-observed outputs for one epoch. -/
theorem C7_repeated_run_determinism_witness :
    Harmonics.schedulerFitOutputs (fun _ v => v) Harmonics.chainGraph [0, 1, 0, 1]
        (fun _ _ => (5 : Nat)) (fun _ => [0, 1, 0, 1, 0, 1, 0, 1]) 1
      = Harmonics.schedulerFitOutputs (fun _ v => v) Harmonics.chainGraph [0, 1, 0, 1]
        (fun _ _ => (5 : Nat)) (fun _ => [1, 0, 1, 0, 1, 0, 1, 0]) 1 :=
  C7_repeated_run_determinism (fun _ v => v) Harmonics.chainGraph [0, 1, 0, 1]
    (by decide) (fun _ _ => (5 : Nat)) (fun _ => [0, 1, 0, 1, 0, 1, 0, 1])
    (fun _ => [1, 0, 1, 0, 1, 0, 1, 0]) 1
    (by
      intro k hk
      have h0 : k = 0 := by omega
      subst h0
      decide)
    (by
      intro k hk
      have h0 : k = 0 := by omega
      subst h0
      decide)

/-- C8 witness: the chain graph creates no boundary edge with one backend
and one with two backends. -/
theorem C8_boundary_monotone_witness :
    Harmonics.totalBoundary [Harmonics.exampleWholePartition]
      ≤ Harmonics.totalBoundary [Harmonics.examplePartition0, Harmonics.examplePartition1] :=
  C8_boundary_monotone Harmonics.chainGraph [.HARMONICS_BACKEND_CPU]
    [.HARMONICS_BACKEND_CPU, .HARMONICS_BACKEND_CPU]
    [Harmonics.exampleWholePartition]
    [Harmonics.examplePartition0, Harmonics.examplePartition1]
    (by decide) (by decide) (by decide) (by rfl) (by rfl)

/-- C9 witness: after partitioning through the ABI store, handle 0 still
maps to the original chain graph. -/
theorem C9_auto_partition_no_mutation_witness :
    ((Harmonics.autoPartitionABI [Harmonics.chainGraph] 0
        [.HARMONICS_BACKEND_CPU, .HARMONICS_BACKEND_CPU]).1).get? 0
      = some Harmonics.chainGraph :=
  ((C9_auto_partition_no_mutation [Harmonics.chainGraph] 0
      [.HARMONICS_BACKEND_CPU, .HARMONICS_BACKEND_CPU]).1 0 (by decide)).trans rfl
